import Mathlib

/-!
Verification of the Audio Segmentation & Count-Normalization Engine.

This file is a shallow embedding, in Lean 4, of the engine implemented in
`src/index.ts` (`normalizeRangesToCount`) and `src/utils/audioUtils.ts`
(`decode`, `decodeAudioData`, `encodeAudioBufferToPCMBase64`,
`splitAudioBySilence`, `sliceAudioBuffer`).

Modelling conventions:

* JavaScript numbers holding sample indices are embedded as `ℤ`; sample
  values, durations (seconds) and configuration values are embedded as `ℚ`
  (the source uses IEEE doubles / `Float32Array`; all of the engine's
  arithmetic on the inputs used in the theorems below is exact in binary
  floating point, so exact rational arithmetic agrees with the source there).
* `Math.floor(x / y)` for integer `x` and positive integer `y` is `x / y`
  on `ℤ` (Lean's integer division rounds toward negative infinity for
  positive divisors, exactly like `Math.floor` of the real quotient).
* The `rms < rmsThreshold` comparison in `splitAudioBySilence` is embedded
  without the square root: for the frame's mean square `m ≥ 0` we use the
  equivalent decidable test `0 ≤ θ ∧ m < θ²` (for `m ≥ 0`,
  `Real.sqrt m < θ ↔ 0 ≤ θ ∧ m < θ²`), keeping every definition executable.
* Code whose imperative loops mutate a local array in place is embedded as
  structural recursion over lists, one constructor case per loop step.
* A JavaScript `TypeError` / `RangeError` crash is embedded as `Option.none`.
* `normalizeRangesToCount` copies the caller's array (`[...inputRanges]`)
  but shares the range *objects* with the caller and mutates their
  `endSample` fields in place.  The main embedding
  (`normalizeRangesToCount`) treats ranges as values, which matches the
  source whenever the caller's array holds pairwise distinct objects (the
  only shape the engine ever produces).  A second, store-passing embedding
  (`normalizeRangesToCountHeap`) makes the object identities and in-place
  mutation explicit; it is used for the frame/effects claim.
-/

namespace AudioEngine

/-- A half-open sample range `[startSample, endSample)`, the
`{ startSample, endSample }` record of the source. -/
structure SampleRange where
  startSample : ℤ
  endSample : ℤ
deriving Repr, DecidableEq

/-- `(r.endSample - r.startSample) / sampleRate`: the duration of a range in
seconds, as computed by the source (`const dur = (out[i].endSample -
out[i].startSample) / sampleRate`). -/
def durOf (r : SampleRange) (sampleRate : ℚ) : ℚ :=
  ((r.endSample - r.startSample : ℤ) : ℚ) / sampleRate

/-- Phase 1 of `normalizeRangesToCount` (`index.ts` lines 52-60): scan left
to right; while the range at the cursor is shorter than 0.25 s, extend its
`endSample` to the next range's `endSample` and drop that next range without
advancing the cursor; otherwise advance.  Ranges before the cursor are never
revisited, which is exactly this recursion. -/
def mergeTiny (sampleRate : ℚ) : List SampleRange → List SampleRange
  | [] => []
  | [r] => [r]
  | r :: s :: rest =>
    if durOf r sampleRate < 1/4 then
      mergeTiny sampleRate ({ startSample := r.startSample, endSample := s.endSample } :: rest)
    else
      r :: mergeTiny sampleRate (s :: rest)
  termination_by l => l.length

/-- Linear scan for the first index of strictly smallest duration
(`index.ts` lines 64-69).  `best` is the best index so far, `bestDur` its
duration, `i` the index of the head of the remaining list. -/
def minDurIdxAux (sampleRate : ℚ) : List SampleRange → ℕ → ℚ → ℕ → ℕ
  | [], _, _, best => best
  | r :: rest, i, bestDur, best =>
    if durOf r sampleRate < bestDur then minDurIdxAux sampleRate rest (i + 1) (durOf r sampleRate) i
    else minDurIdxAux sampleRate rest (i + 1) bestDur best

/-- The source starts the scan with `minDur = Infinity`, so the head always
wins the first comparison; the embedding starts from the head's duration. -/
def minDurIdx (sampleRate : ℚ) : List SampleRange → ℕ
  | [] => 0
  | r :: rest => minDurIdxAux sampleRate rest 1 (durOf r sampleRate) 0

/-- Linear scan for the first index of strictly largest duration
(`index.ts` lines 81-86).  The source's sentinel `maxDur = -1` is kept:
an initial range of duration `≤ -1` does not replace index 0. -/
def maxDurIdxAux (sampleRate : ℚ) : List SampleRange → ℕ → ℚ → ℕ → ℕ
  | [], _, _, best => best
  | r :: rest, i, bestDur, best =>
    if durOf r sampleRate > bestDur then maxDurIdxAux sampleRate rest (i + 1) (durOf r sampleRate) i
    else maxDurIdxAux sampleRate rest (i + 1) bestDur best

/-- Index scan of phase 3, starting from the sentinel `maxDur = -1` at
index 0 as in the source. -/
def maxDurIdx (sampleRate : ℚ) (l : List SampleRange) : ℕ :=
  maxDurIdxAux sampleRate l 0 (-1) 0

/-- `out[k].endSample = out[k + 1].endSample; out.splice(k + 1, 1)`: merge
the range at index `k` with its immediate successor.  Out-of-range indices
leave the list unchanged (the source never reaches them). -/
def mergeAt : List SampleRange → ℕ → List SampleRange
  | r :: s :: rest, 0 => { startSample := r.startSample, endSample := s.endSample } :: rest
  | r :: rest, k + 1 => r :: mergeAt rest k
  | l, _ => l

/-- One iteration of phase 2 (`index.ts` lines 63-77): locate the first
shortest range; if it is not the last element merge it forward, otherwise
merge it backward into its predecessor (both are `mergeAt` at the
appropriate index). -/
def mergeStep (sampleRate : ℚ) (l : List SampleRange) : List SampleRange :=
  let m := minDurIdx sampleRate l
  if m < l.length - 1 then mergeAt l m else mergeAt l (m - 1)

/-- `out.splice(maxIdx, 1, left, right)` with
`mid = Math.floor((seg.startSample + seg.endSample) / 2)` (`index.ts` lines
87-91): replace the range at the given index by its two halves. -/
def splitRangeAt : List SampleRange → ℕ → List SampleRange
  | seg :: rest, 0 =>
    let mid := (seg.startSample + seg.endSample) / 2
    { startSample := seg.startSample, endSample := mid } ::
      { startSample := mid, endSample := seg.endSample } :: rest
  | r :: rest, k + 1 => r :: splitRangeAt rest k
  | [], _ => []

/-- One iteration of phase 3 (`index.ts` lines 80-92): split the first
longest range at its integer midpoint. -/
def splitStep (sampleRate : ℚ) (l : List SampleRange) : List SampleRange :=
  splitRangeAt l (maxDurIdx sampleRate l)

theorem mergeAt_length (l : List SampleRange) (k : ℕ) (h : k + 1 < l.length) :
    (mergeAt l k).length + 1 = l.length := by
  induction l generalizing k with
  | nil => simp at h
  | cons r rest ih =>
    cases k with
    | zero =>
      cases rest with
      | nil => simp at h
      | cons s rest' => simp [mergeAt]
    | succ k =>
      simp only [List.length_cons, Nat.add_lt_add_iff_right] at h
      simp [mergeAt, ih k h]

theorem splitRangeAt_length (l : List SampleRange) (k : ℕ) (h : k < l.length) :
    (splitRangeAt l k).length = l.length + 1 := by
  induction l generalizing k with
  | nil => simp at h
  | cons r rest ih =>
    cases k with
    | zero => simp [splitRangeAt]
    | succ k =>
      simp only [List.length_cons, Nat.add_lt_add_iff_right] at h
      simp [splitRangeAt, ih k h]

theorem minDurIdxAux_cases (sampleRate : ℚ) :
    ∀ (l : List SampleRange) (i : ℕ) (bd : ℚ) (best : ℕ),
      minDurIdxAux sampleRate l i bd best = best ∨
        (i ≤ minDurIdxAux sampleRate l i bd best ∧
          minDurIdxAux sampleRate l i bd best < i + l.length)
  | [], _, _, _ => Or.inl rfl
  | r :: rest, i, bd, best => by
    simp only [minDurIdxAux]
    by_cases h : durOf r sampleRate < bd
    · simp only [if_pos h]
      rcases minDurIdxAux_cases sampleRate rest (i + 1) (durOf r sampleRate) i with h' | h'
      · right; rw [h']; simp
      · right; constructor
        · omega
        · simpa [Nat.add_comm, Nat.add_left_comm] using h'.2
    · simp only [if_neg h]
      rcases minDurIdxAux_cases sampleRate rest (i + 1) bd best with h' | h'
      · left; exact h'
      · right; constructor
        · omega
        · simpa [Nat.add_comm, Nat.add_left_comm] using h'.2

theorem minDurIdx_lt_length (sampleRate : ℚ) (l : List SampleRange) (h : l ≠ []) :
    minDurIdx sampleRate l < l.length := by
  cases l with
  | nil => simp at h
  | cons r rest =>
    simp only [minDurIdx, List.length_cons]
    rcases minDurIdxAux_cases sampleRate rest 1 (durOf r sampleRate) 0 with h' | h'
    · rw [h']; omega
    · omega

theorem maxDurIdxAux_cases (sampleRate : ℚ) :
    ∀ (l : List SampleRange) (i : ℕ) (bd : ℚ) (best : ℕ),
      maxDurIdxAux sampleRate l i bd best = best ∨
        (i ≤ maxDurIdxAux sampleRate l i bd best ∧
          maxDurIdxAux sampleRate l i bd best < i + l.length)
  | [], _, _, _ => Or.inl rfl
  | r :: rest, i, bd, best => by
    simp only [maxDurIdxAux]
    by_cases h : durOf r sampleRate > bd
    · simp only [if_pos h]
      rcases maxDurIdxAux_cases sampleRate rest (i + 1) (durOf r sampleRate) i with h' | h'
      · right; rw [h']; simp
      · right; constructor
        · omega
        · simpa [Nat.add_comm, Nat.add_left_comm] using h'.2
    · simp only [if_neg h]
      rcases maxDurIdxAux_cases sampleRate rest (i + 1) bd best with h' | h'
      · left; exact h'
      · right; constructor
        · omega
        · simpa [Nat.add_comm, Nat.add_left_comm] using h'.2

theorem maxDurIdx_lt_length (sampleRate : ℚ) (l : List SampleRange) (h : l ≠ []) :
    maxDurIdx sampleRate l < l.length := by
  cases l with
  | nil => simp at h
  | cons r rest =>
    simp only [maxDurIdx, List.length_cons]
    rcases maxDurIdxAux_cases sampleRate (r :: rest) 0 (-1) 0 with h' | h'
    · rw [h']; omega
    · simp only [List.length_cons] at h'; omega

theorem mergeStep_length (sampleRate : ℚ) (l : List SampleRange) (h : 2 ≤ l.length) :
    (mergeStep sampleRate l).length + 1 = l.length := by
  have hne : l ≠ [] := by cases l <;> simp_all
  have hm := minDurIdx_lt_length sampleRate l hne
  unfold mergeStep
  by_cases hc : minDurIdx sampleRate l < l.length - 1
  · rw [if_pos hc]
    exact mergeAt_length l _ (by omega)
  · rw [if_neg hc]
    exact mergeAt_length l _ (by omega)

/-- Phase 2 of `normalizeRangesToCount` (`index.ts` lines 63-77): while more
ranges remain than the target count (and at least two remain), merge the
first shortest range with a neighbor. -/
def mergeDown (sampleRate : ℚ) (count : ℕ) (l : List SampleRange) : List SampleRange :=
  if h : l.length > count ∧ l.length > 1 then
    mergeDown sampleRate count (mergeStep sampleRate l)
  else l
  termination_by l.length
  decreasing_by
    have := mergeStep_length sampleRate l (by omega)
    omega

theorem splitStep_length (sampleRate : ℚ) (l : List SampleRange) (h : l ≠ []) :
    (splitStep sampleRate l).length = l.length + 1 :=
  splitRangeAt_length l _ (maxDurIdx_lt_length sampleRate l h)

/-- Phase 3 of `normalizeRangesToCount` (`index.ts` lines 80-92): while
fewer ranges remain than the target count, split the first longest range at
its midpoint.  On an empty list the source reads `out[0].startSample` of
`undefined` and throws a `TypeError`; that crash is `none`. -/
def splitUp (sampleRate : ℚ) (count : ℕ) (l : List SampleRange) : Option (List SampleRange) :=
  if h : l.length < count then
    if hne : l = [] then none
    else splitUp sampleRate count (splitStep sampleRate l)
  else some l
  termination_by count - l.length
  decreasing_by
    have : (splitStep sampleRate l).length = l.length + 1 :=
      splitStep_length sampleRate l hne
    omega

/-- `normalizeRangesToCount(inputRanges, count, sampleRate)` from
`src/index.ts` lines 44-95: pre-merge sub-0.25 s ranges, merge down to the
target count, split up to the target count, then `out.slice(0, count)`. -/
def normalizeRangesToCount (inputRanges : List SampleRange) (count : ℕ) (sampleRate : ℚ) :
    Option (List SampleRange) :=
  (splitUp sampleRate count (mergeDown sampleRate count (mergeTiny sampleRate inputRanges))).map
    (fun out => out.take count)

/-! Fuel-indexed mirrors of the three phase loops.  The loops above are
defined by well-founded recursion, which the kernel cannot evaluate, so for
each loop we add a structurally recursive twin (recursion on an explicit
fuel counter) and prove it equal whenever the fuel covers the loop's actual
iteration count.  Concrete instances are then settled by `decide` through
`normalizeRangesToCountExec`. -/

/-- Fuel-indexed twin of `mergeTiny`. -/
def mergeTinyF (sampleRate : ℚ) : ℕ → List SampleRange → List SampleRange
  | _, [] => []
  | _, [r] => [r]
  | 0, l => l
  | fuel + 1, r :: s :: rest =>
    if durOf r sampleRate < 1/4 then
      mergeTinyF sampleRate fuel ({ startSample := r.startSample, endSample := s.endSample } :: rest)
    else
      r :: mergeTinyF sampleRate fuel (s :: rest)

theorem mergeTinyF_eq (sampleRate : ℚ) :
    ∀ (fuel : ℕ) (l : List SampleRange), l.length ≤ fuel →
      mergeTinyF sampleRate fuel l = mergeTiny sampleRate l
  | 0, [], _ => by rw [mergeTinyF, mergeTiny]
  | fuel + 1, [], _ => by rw [mergeTinyF, mergeTiny]
  | 0, [r], _ => by rw [mergeTinyF, mergeTiny]
  | fuel + 1, [r], _ => by rw [mergeTinyF, mergeTiny]
  | 0, r :: s :: rest, h => by simp at h
  | fuel + 1, r :: s :: rest, h => by
    have h' : rest.length + 1 ≤ fuel := by simpa using h
    rw [mergeTinyF, mergeTiny]
    by_cases hc : durOf r sampleRate < 1/4
    · rw [if_pos hc, if_pos hc,
        mergeTinyF_eq sampleRate fuel ({ startSample := r.startSample, endSample := s.endSample } :: rest) (by simpa using h')]
    · rw [if_neg hc, if_neg hc,
        mergeTinyF_eq sampleRate fuel (s :: rest) (by simpa using h')]

/-- Fuel-indexed twin of `mergeDown`. -/
def mergeDownF (sampleRate : ℚ) (count : ℕ) : ℕ → List SampleRange → List SampleRange
  | 0, l => l
  | fuel + 1, l =>
    if l.length > count ∧ l.length > 1 then
      mergeDownF sampleRate count fuel (mergeStep sampleRate l)
    else l

theorem mergeDownF_eq (sampleRate : ℚ) (count : ℕ) :
    ∀ (fuel : ℕ) (l : List SampleRange), l.length ≤ fuel →
      mergeDownF sampleRate count fuel l = mergeDown sampleRate count l
  | 0, l, h => by
    have : l = [] := by cases l <;> simp_all
    subst this
    rw [mergeDownF, mergeDown]
    simp
  | fuel + 1, l, h => by
    rw [mergeDownF, mergeDown]
    by_cases hc : l.length > count ∧ l.length > 1
    · rw [if_pos hc, dif_pos hc]
      have hlen := mergeStep_length sampleRate l (by omega)
      exact mergeDownF_eq sampleRate count fuel (mergeStep sampleRate l) (by omega)
    · rw [if_neg hc, dif_neg hc]

/-- Fuel-indexed twin of `splitUp`. -/
def splitUpF (sampleRate : ℚ) (count : ℕ) : ℕ → List SampleRange → Option (List SampleRange)
  | 0, l => if l.length < count then none else some l
  | fuel + 1, l =>
    if l.length < count then
      if l = [] then none
      else splitUpF sampleRate count fuel (splitStep sampleRate l)
    else some l

theorem splitUpF_eq (sampleRate : ℚ) (count : ℕ) :
    ∀ (fuel : ℕ) (l : List SampleRange), count - l.length ≤ fuel →
      splitUpF sampleRate count fuel l = splitUp sampleRate count l
  | 0, l, h => by
    rw [splitUpF, splitUp]
    have : ¬ l.length < count := by omega
    rw [if_neg this, dif_neg this]
  | fuel + 1, l, h => by
    rw [splitUpF, splitUp]
    by_cases hc : l.length < count
    · rw [if_pos hc, dif_pos hc]
      by_cases hne : l = []
      · rw [if_pos hne, dif_pos hne]
      · rw [if_neg hne, dif_neg hne]
        have hlen := splitStep_length sampleRate l hne
        exact splitUpF_eq sampleRate count fuel (splitStep sampleRate l) (by omega)
    · rw [if_neg hc, dif_neg hc]

/-- Executable form of `normalizeRangesToCount`, with enough fuel for every
phase; used only to evaluate the (equal) source embedding on concrete
inputs. -/
def normalizeRangesToCountExec (inputRanges : List SampleRange) (count : ℕ) (sampleRate : ℚ) :
    Option (List SampleRange) :=
  (splitUpF sampleRate count count
      (mergeDownF sampleRate count inputRanges.length
        (mergeTinyF sampleRate inputRanges.length inputRanges))).map
    (fun out => out.take count)

theorem mergeTiny_length_le (sampleRate : ℚ) :
    ∀ l : List SampleRange, (mergeTiny sampleRate l).length ≤ l.length
  | [] => by rw [mergeTiny]
  | [r] => by rw [mergeTiny]
  | r :: s :: rest => by
    rw [mergeTiny]
    by_cases hc : durOf r sampleRate < 1/4
    · rw [if_pos hc]
      have := mergeTiny_length_le sampleRate
        ({ startSample := r.startSample, endSample := s.endSample } :: rest)
      simp only [List.length_cons] at *
      omega
    · rw [if_neg hc]
      have := mergeTiny_length_le sampleRate (s :: rest)
      simp only [List.length_cons] at *
      omega
  termination_by l => l.length

theorem mergeDown_length_le (sampleRate : ℚ) (count : ℕ) (l : List SampleRange) :
    (mergeDown sampleRate count l).length ≤ l.length := by
  suffices h : ∀ (n : ℕ) (l : List SampleRange), l.length ≤ n →
      (mergeDown sampleRate count l).length ≤ l.length from h l.length l le_rfl
  intro n
  induction n with
  | zero =>
    intro l hl
    rw [mergeDown]
    have : ¬ (l.length > count ∧ l.length > 1) := by omega
    rw [dif_neg this]
  | succ n ih =>
    intro l hl
    rw [mergeDown]
    by_cases hc : l.length > count ∧ l.length > 1
    · rw [dif_pos hc]
      have hlen := mergeStep_length sampleRate l (by omega)
      have := ih (mergeStep sampleRate l) (by omega)
      omega
    · rw [dif_neg hc]

theorem normalizeRangesToCountExec_eq (inputRanges : List SampleRange) (count : ℕ)
    (sampleRate : ℚ) :
    normalizeRangesToCountExec inputRanges count sampleRate =
      normalizeRangesToCount inputRanges count sampleRate := by
  unfold normalizeRangesToCountExec normalizeRangesToCount
  rw [mergeTinyF_eq sampleRate inputRanges.length inputRanges le_rfl,
    mergeDownF_eq sampleRate count inputRanges.length (mergeTiny sampleRate inputRanges)
      (mergeTiny_length_le sampleRate inputRanges),
    splitUpF_eq sampleRate count count
      (mergeDown sampleRate count (mergeTiny sampleRate inputRanges)) (by omega)]

/-! ### Invariants of the normalizer

`ValidOn` is the per-range `SampleRange` invariant `startSample ≤ endSample`;
`OrderedOn` says consecutive ranges are non-decreasing and non-overlapping
(`endSample` of one is at most `startSample` of the next), which is the
order in which `splitAudioBySilence` produces them. -/

/-- Every range in the list has non-negative duration. -/
def ValidOn (l : List SampleRange) : Prop :=
  ∀ r ∈ l, r.startSample ≤ r.endSample

/-- Consecutive ranges are non-overlapping and non-decreasing. -/
def OrderedOn (l : List SampleRange) : Prop :=
  l.Chain' (fun a b => a.endSample ≤ b.startSample)

instance (l : List SampleRange) : Decidable (ValidOn l) :=
  inferInstanceAs (Decidable (∀ r ∈ l, r.startSample ≤ r.endSample))

theorem orderedOn_nil : OrderedOn [] := List.chain'_nil

theorem orderedOn_singleton (r : SampleRange) : OrderedOn [r] := List.chain'_singleton r

theorem chain'_take {α : Type} {R : α → α → Prop} :
    ∀ (l : List α), l.Chain' R → ∀ n : ℕ, (l.take n).Chain' R
  | [], _, _ => by simp
  | a :: l, h, 0 => by simp
  | a :: l, h, n + 1 => by
    rw [List.take_succ_cons, List.chain'_cons']
    rw [List.chain'_cons'] at h
    refine ⟨fun b hb => ?_, chain'_take l h.2 n⟩
    apply h.1
    rcases l with _ | ⟨c, l'⟩
    · simp at hb
    · cases n <;> simp_all

theorem validOn_take {l : List SampleRange} (h : ValidOn l) (n : ℕ) : ValidOn (l.take n) :=
  fun r hr => h r (List.take_subset n l hr)

theorem orderedOn_take {l : List SampleRange} (h : OrderedOn l) (n : ℕ) :
    OrderedOn (l.take n) :=
  chain'_take l h n

/-- The head of `mergeTiny` keeps the first input range's `startSample`:
phase 1 only ever extends `endSample`s. -/
theorem mergeTiny_head (sampleRate : ℚ) :
    ∀ (s : SampleRange) (rest : List SampleRange),
      ∃ e tl, mergeTiny sampleRate (s :: rest) =
        { startSample := s.startSample, endSample := e } :: tl
  | s, [] => ⟨s.endSample, [], by rw [mergeTiny]⟩
  | s, t :: rest => by
    rw [mergeTiny]
    by_cases hc : durOf s sampleRate < 1/4
    · rw [if_pos hc]
      exact mergeTiny_head sampleRate _ rest
    · rw [if_neg hc]
      exact ⟨s.endSample, mergeTiny sampleRate (t :: rest), rfl⟩
  termination_by _ rest => rest.length

theorem validOn_cons {a : SampleRange} {l : List SampleRange} :
    ValidOn (a :: l) ↔ a.startSample ≤ a.endSample ∧ ValidOn l := by
  unfold ValidOn
  simp

theorem orderedOn_cons_cons {a b : SampleRange} {l : List SampleRange} :
    OrderedOn (a :: b :: l) ↔ a.endSample ≤ b.startSample ∧ OrderedOn (b :: l) := by
  unfold OrderedOn
  exact List.chain'_cons

instance instDecOrderedOn : (l : List SampleRange) → Decidable (OrderedOn l)
  | [] => .isTrue orderedOn_nil
  | [r] => .isTrue (orderedOn_singleton r)
  | a :: b :: rest =>
    haveI := instDecOrderedOn (b :: rest)
    decidable_of_iff _ orderedOn_cons_cons.symm

theorem orderedOn_cons_head {a : SampleRange} {l : List SampleRange} :
    OrderedOn (a :: l) ↔
      (∀ b ∈ l.head?, a.endSample ≤ b.startSample) ∧ OrderedOn l := by
  unfold OrderedOn
  exact List.chain'_cons'

/-- Heads keep their `startSample` through `mergeTiny`, `mergeAt` and
`splitRangeAt`; stated through `head?` so the three lemmas share one shape. -/
theorem head?_start_eq {l l' : List SampleRange}
    (h : l.head?.map (fun r => r.startSample) = l'.head?.map (fun r => r.startSample))
    {a : SampleRange} (hrel : ∀ b ∈ l'.head?, a.endSample ≤ b.startSample) :
    ∀ b ∈ l.head?, a.endSample ≤ b.startSample := by
  intro b hb
  rw [Option.mem_def] at hb
  rw [hb] at h
  rcases hl' : l'.head? with _ | ⟨c⟩
  · rw [hl'] at h
    simp at h
  · rw [hl'] at h
    simp only [Option.map_some', Option.some.injEq] at h
    have := hrel c (by rw [hl']; rfl)
    omega

theorem mergeTiny_valid_ordered (sampleRate : ℚ) :
    ∀ l : List SampleRange, ValidOn l → OrderedOn l →
      ValidOn (mergeTiny sampleRate l) ∧ OrderedOn (mergeTiny sampleRate l)
  | [] => fun hv ho => by rw [mergeTiny]; exact ⟨hv, ho⟩
  | [r] => fun hv ho => by rw [mergeTiny]; exact ⟨hv, ho⟩
  | r :: s :: rest => fun hv ho => by
    rw [mergeTiny]
    obtain ⟨hrs, hrest⟩ := orderedOn_cons_cons.mp ho
    obtain ⟨hr, hsx⟩ := validOn_cons.mp hv
    obtain ⟨hs, hx⟩ := validOn_cons.mp hsx
    by_cases hc : durOf r sampleRate < 1/4
    · rw [if_pos hc]
      refine mergeTiny_valid_ordered sampleRate _ ?_ ?_
      · exact validOn_cons.mpr ⟨by simp only; omega, hx⟩
      · exact orderedOn_cons_head.mpr
          ⟨(orderedOn_cons_head.mp hrest).1, (orderedOn_cons_head.mp hrest).2⟩
    · rw [if_neg hc]
      obtain ⟨hv', ho'⟩ := mergeTiny_valid_ordered sampleRate (s :: rest) hsx hrest
      refine ⟨validOn_cons.mpr ⟨hr, hv'⟩, orderedOn_cons_head.mpr ⟨?_, ho'⟩⟩
      obtain ⟨e, tl, heq⟩ := mergeTiny_head sampleRate s rest
      rw [heq]
      intro b hb
      rw [Option.mem_def, List.head?_cons, Option.some.injEq] at hb
      rw [← hb]
      exact hrs
  termination_by l => l.length

theorem mergeAt_head_start :
    ∀ (l : List SampleRange) (k : ℕ), k + 1 < l.length →
      (mergeAt l k).head?.map (fun r => r.startSample) =
        l.head?.map (fun r => r.startSample)
  | [], k, h => by simp at h
  | [r], k, h => by simp at h
  | r :: s :: rest, 0, _ => by rw [mergeAt]; simp
  | r :: s :: rest, k + 1, _ => by rw [mergeAt]; simp

theorem mergeAt_valid_ordered :
    ∀ (l : List SampleRange) (k : ℕ), k + 1 < l.length → ValidOn l → OrderedOn l →
      ValidOn (mergeAt l k) ∧ OrderedOn (mergeAt l k)
  | [], k, h, _, _ => by simp at h
  | [r], k, h, _, _ => by simp at h
  | r :: s :: rest, 0, _, hv, ho => by
    rw [mergeAt]
    obtain ⟨hrs, hrest⟩ := orderedOn_cons_cons.mp ho
    obtain ⟨hr, hsx⟩ := validOn_cons.mp hv
    obtain ⟨hs, hx⟩ := validOn_cons.mp hsx
    constructor
    · exact validOn_cons.mpr ⟨by simp only; omega, hx⟩
    · exact orderedOn_cons_head.mpr
        ⟨(orderedOn_cons_head.mp hrest).1, (orderedOn_cons_head.mp hrest).2⟩
  | r :: s :: rest, k + 1, h, hv, ho => by
    rw [mergeAt]
    have h' : k + 1 < (s :: rest).length := by simpa using h
    obtain ⟨hrs, hrest⟩ := orderedOn_cons_cons.mp ho
    obtain ⟨hr, hsx⟩ := validOn_cons.mp hv
    obtain ⟨hv', ho'⟩ := mergeAt_valid_ordered (s :: rest) k h' hsx hrest
    refine ⟨validOn_cons.mpr ⟨hr, hv'⟩, orderedOn_cons_head.mpr ⟨?_, ho'⟩⟩
    refine head?_start_eq (mergeAt_head_start (s :: rest) k h') ?_
    intro b hb
    rw [Option.mem_def, List.head?_cons, Option.some.injEq] at hb
    rw [← hb]
    exact hrs

theorem splitRangeAt_head_start :
    ∀ (l : List SampleRange) (k : ℕ), k < l.length →
      (splitRangeAt l k).head?.map (fun r => r.startSample) =
        l.head?.map (fun r => r.startSample)
  | [], k, h => by simp at h
  | seg :: rest, 0, _ => by rw [splitRangeAt]; simp
  | r :: rest, k + 1, _ => by rw [splitRangeAt]; simp

theorem splitRangeAt_valid_ordered :
    ∀ (l : List SampleRange) (k : ℕ), k < l.length → ValidOn l → OrderedOn l →
      ValidOn (splitRangeAt l k) ∧ OrderedOn (splitRangeAt l k)
  | [], k, h, _, _ => by simp at h
  | seg :: rest, 0, _, hv, ho => by
    rw [splitRangeAt]
    obtain ⟨hseg, hx⟩ := validOn_cons.mp hv
    have hmid1 : seg.startSample ≤ (seg.startSample + seg.endSample) / 2 := by omega
    have hmid2 : (seg.startSample + seg.endSample) / 2 ≤ seg.endSample := by omega
    obtain ⟨hhead, hrest⟩ := orderedOn_cons_head.mp ho
    constructor
    · exact validOn_cons.mpr ⟨hmid1, validOn_cons.mpr ⟨hmid2, hx⟩⟩
    · exact orderedOn_cons_cons.mpr ⟨le_refl _, orderedOn_cons_head.mpr ⟨hhead, hrest⟩⟩
  | r :: rest, k + 1, h, hv, ho => by
    rw [splitRangeAt]
    have h' : k < rest.length := by simpa using h
    obtain ⟨hhead, hrest⟩ := orderedOn_cons_head.mp ho
    obtain ⟨hr, hx⟩ := validOn_cons.mp hv
    obtain ⟨hv', ho'⟩ := splitRangeAt_valid_ordered rest k h' hx hrest
    exact ⟨validOn_cons.mpr ⟨hr, hv'⟩, orderedOn_cons_head.mpr
      ⟨head?_start_eq (splitRangeAt_head_start rest k h') hhead, ho'⟩⟩

theorem mergeStep_valid_ordered (sampleRate : ℚ) (l : List SampleRange)
    (h : 2 ≤ l.length) (hv : ValidOn l) (ho : OrderedOn l) :
    ValidOn (mergeStep sampleRate l) ∧ OrderedOn (mergeStep sampleRate l) := by
  have hne : l ≠ [] := by cases l <;> simp_all
  have hm := minDurIdx_lt_length sampleRate l hne
  unfold mergeStep
  by_cases hc : minDurIdx sampleRate l < l.length - 1
  · rw [if_pos hc]
    exact mergeAt_valid_ordered l _ (by omega) hv ho
  · rw [if_neg hc]
    exact mergeAt_valid_ordered l _ (by omega) hv ho

theorem splitStep_valid_ordered (sampleRate : ℚ) (l : List SampleRange)
    (h : l ≠ []) (hv : ValidOn l) (ho : OrderedOn l) :
    ValidOn (splitStep sampleRate l) ∧ OrderedOn (splitStep sampleRate l) :=
  splitRangeAt_valid_ordered l _ (maxDurIdx_lt_length sampleRate l h) hv ho

theorem mergeDown_spec (sampleRate : ℚ) (count : ℕ) (l : List SampleRange)
    (hv : ValidOn l) (ho : OrderedOn l) :
    ValidOn (mergeDown sampleRate count l) ∧ OrderedOn (mergeDown sampleRate count l) ∧
      (1 ≤ l.length → 1 ≤ (mergeDown sampleRate count l).length) := by
  suffices hgen : ∀ (n : ℕ) (l : List SampleRange), l.length ≤ n → ValidOn l → OrderedOn l →
      ValidOn (mergeDown sampleRate count l) ∧ OrderedOn (mergeDown sampleRate count l) ∧
        (1 ≤ l.length → 1 ≤ (mergeDown sampleRate count l).length) from
    hgen l.length l le_rfl hv ho
  intro n
  induction n with
  | zero =>
    intro l hl hv ho
    rw [mergeDown]
    have : ¬ (l.length > count ∧ l.length > 1) := by omega
    rw [dif_neg this]
    exact ⟨hv, ho, fun h => h⟩
  | succ n ih =>
    intro l hl hv ho
    rw [mergeDown]
    by_cases hc : l.length > count ∧ l.length > 1
    · rw [dif_pos hc]
      have hlen := mergeStep_length sampleRate l (by omega)
      obtain ⟨hv', ho'⟩ := mergeStep_valid_ordered sampleRate l (by omega) hv ho
      obtain ⟨h1, h2, h3⟩ := ih (mergeStep sampleRate l) (by omega) hv' ho'
      exact ⟨h1, h2, fun _ => h3 (by omega)⟩
    · rw [dif_neg hc]
      exact ⟨hv, ho, fun h => h⟩

theorem splitUp_spec (sampleRate : ℚ) (count : ℕ) (l : List SampleRange)
    (hne : l ≠ []) (hv : ValidOn l) (ho : OrderedOn l) :
    ∃ out, splitUp sampleRate count l = some out ∧ out.length = max count l.length ∧
      ValidOn out ∧ OrderedOn out := by
  suffices hgen : ∀ (n : ℕ) (l : List SampleRange), count - l.length ≤ n → l ≠ [] →
      ValidOn l → OrderedOn l →
      ∃ out, splitUp sampleRate count l = some out ∧ out.length = max count l.length ∧
        ValidOn out ∧ OrderedOn out from
    hgen (count - l.length) l le_rfl hne hv ho
  intro n
  induction n with
  | zero =>
    intro l hl hne hv ho
    rw [splitUp]
    have hc : ¬ l.length < count := by omega
    rw [dif_neg hc]
    exact ⟨l, rfl, by omega, hv, ho⟩
  | succ n ih =>
    intro l hl hne hv ho
    rw [splitUp]
    by_cases hc : l.length < count
    · rw [dif_pos hc, dif_neg hne]
      have hlen := splitStep_length sampleRate l hne
      obtain ⟨hv', ho'⟩ := splitStep_valid_ordered sampleRate l hne hv ho
      have hne' : splitStep sampleRate l ≠ [] := by
        intro hcon
        rw [hcon] at hlen
        simp at hlen
      obtain ⟨out, heq, hl', hvo, hoo⟩ := ih (splitStep sampleRate l) (by omega) hne' hv' ho'
      exact ⟨out, heq, by omega, hvo, hoo⟩
    · rw [dif_neg hc]
      exact ⟨l, rfl, by omega, hv, ho⟩

theorem splitUp_some_length (sampleRate : ℚ) (count : ℕ) (l out : List SampleRange)
    (h : splitUp sampleRate count l = some out) : count ≤ out.length := by
  suffices hgen : ∀ (n : ℕ) (l : List SampleRange), count - l.length ≤ n →
      splitUp sampleRate count l = some out → count ≤ out.length from
    hgen (count - l.length) l le_rfl h
  intro n
  induction n with
  | zero =>
    intro l hl h
    rw [splitUp] at h
    have hc : ¬ l.length < count := by omega
    rw [dif_neg hc] at h
    rw [Option.some.injEq] at h
    have := congrArg List.length h
    omega
  | succ n ih =>
    intro l hl h
    rw [splitUp] at h
    by_cases hc : l.length < count
    · rw [dif_pos hc] at h
      by_cases hne : l = []
      · rw [dif_pos hne] at h
        exact absurd h (by simp)
      · rw [dif_neg hne] at h
        have hlen := splitStep_length sampleRate l hne
        exact ih (splitStep sampleRate l) (by omega) h
    · rw [dif_neg hc] at h
      rw [Option.some.injEq] at h
      have := congrArg List.length h
      omega

/-- Whenever `normalizeRangesToCount` returns (it does not crash), the
returned list has exactly `count` ranges: the final `out.slice(0, count)`
never has to shorten a list below `count` because phase 3 only stops at
`count` or above. -/
theorem normalize_some_length (inputRanges : List SampleRange) (count : ℕ) (sampleRate : ℚ)
    (out : List SampleRange)
    (h : normalizeRangesToCount inputRanges count sampleRate = some out) :
    out.length = count := by
  unfold normalizeRangesToCount at h
  rcases hs : splitUp sampleRate count
      (mergeDown sampleRate count (mergeTiny sampleRate inputRanges)) with _ | ⟨mid⟩
  · rw [hs] at h; exact absurd h (by simp)
  · rw [hs] at h
    simp only [Option.map_some', Option.some.injEq] at h
    have := splitUp_some_length sampleRate count _ mid hs
    rw [← h, List.length_take]
    omega

/-- If every range except possibly the last is at least 0.25 s long, the
phase-1 scan advances across the whole list without merging. -/
theorem mergeTiny_eq_self (sampleRate : ℚ) :
    ∀ l : List SampleRange,
      (∀ i, i + 1 < l.length → ¬ durOf (l.getD i ⟨0, 0⟩) sampleRate < 1/4) →
      mergeTiny sampleRate l = l
  | [], _ => by rw [mergeTiny]
  | [r], _ => by rw [mergeTiny]
  | r :: s :: rest, h => by
    rw [mergeTiny]
    have h0 : ¬ durOf r sampleRate < 1/4 := by
      have := h 0 (by simp)
      simpa using this
    rw [if_neg h0]
    rw [mergeTiny_eq_self sampleRate (s :: rest) (fun i hi => by
      have := h (i + 1) (by simpa using hi)
      simpa using this)]
  termination_by l => l.length

/-- `normalizeRangesToCount` is the identity on a list that already has the
target length and triggers no phase-1 merge. -/
theorem normalize_eq_self_of_no_merge (l : List SampleRange) (sampleRate : ℚ)
    (h : ∀ i, i + 1 < l.length → ¬ durOf (l.getD i ⟨0, 0⟩) sampleRate < 1/4) :
    normalizeRangesToCount l l.length sampleRate = some l := by
  unfold normalizeRangesToCount
  rw [mergeTiny_eq_self sampleRate l h]
  rw [mergeDown]
  have hc : ¬ (l.length > l.length ∧ l.length > 1) := by omega
  rw [dif_neg hc]
  rw [splitUp]
  have hc' : ¬ l.length < l.length := by omega
  rw [dif_neg hc']
  simp

/-- Claim C1: for every non-empty list of valid, ordered ranges, every
target count and every positive sample rate, `normalizeRangesToCount`
returns (rather than crashes) a list of exactly `count` ranges (empty when
`count = 0`), still ordered, each with `startSample ≤ endSample`. -/
theorem normalize_postcondition (inputRanges : List SampleRange) (count : ℕ)
    (sampleRate : ℚ) (hne : inputRanges ≠ []) (hsr : 0 < sampleRate)
    (hv : ValidOn inputRanges) (ho : OrderedOn inputRanges) :
    ∃ out, normalizeRangesToCount inputRanges count sampleRate = some out ∧
      out.length = count ∧ ValidOn out ∧ OrderedOn out := by
  obtain ⟨hv1, ho1⟩ := mergeTiny_valid_ordered sampleRate inputRanges hv ho
  have hne1 : mergeTiny sampleRate inputRanges ≠ [] := by
    rcases inputRanges with _ | ⟨a, rest⟩
    · exact absurd rfl hne
    · obtain ⟨e, tl, heq⟩ := mergeTiny_head sampleRate a rest
      rw [heq]
      simp
  obtain ⟨hv2, ho2, hlen2⟩ := mergeDown_spec sampleRate count _ hv1 ho1
  have hne2 : mergeDown sampleRate count (mergeTiny sampleRate inputRanges) ≠ [] := by
    have h1 : 1 ≤ (mergeTiny sampleRate inputRanges).length := by
      rcases hminL : mergeTiny sampleRate inputRanges with _ | _
      · exact absurd hminL hne1
      · simp
    have := hlen2 h1
    intro hcon
    rw [hcon] at this
    simp at this
  obtain ⟨mid, heq, hlenm, hvm, hom⟩ := splitUp_spec sampleRate count _ hne2 hv2 ho2
  refine ⟨mid.take count, ?_, ?_, validOn_take hvm count, orderedOn_take hom count⟩
  · unfold normalizeRangesToCount
    rw [heq]
    rfl
  · rw [List.length_take]
    omega

unseal Rat.mul Rat.inv Rat.add Rat.sub in
/-- Witness for `normalize_postcondition` at a concrete input. -/
theorem normalize_postcondition_witness :
    ([⟨0, 7200⟩] : List SampleRange) ≠ [] ∧ (0 : ℚ) < 24000 ∧
      ValidOn [⟨0, 7200⟩] ∧ OrderedOn [⟨0, 7200⟩] ∧
      ∃ out, normalizeRangesToCount [⟨0, 7200⟩] 3 24000 = some out ∧
        out.length = 3 ∧ ValidOn out ∧ OrderedOn out :=
  ⟨by decide, by decide, by decide, by decide,
    normalize_postcondition [⟨0, 7200⟩] 3 24000 (by decide) (by decide) (by decide) (by decide)⟩

unseal Rat.mul Rat.inv Rat.add Rat.sub in
/-- Claim C7: durations 0.3 s, 0.1 s, 0.1 s at 24000 Hz with target 2:
the first-occurring sub-0.25 s range (index 1) merges forward into index 2,
leaving two ranges of 0.3 s and 0.2 s, the second covering the union of the
former second and third ranges. -/
theorem normalize_merge_tiebreak_concrete :
    normalizeRangesToCount [⟨0, 7200⟩, ⟨7200, 9600⟩, ⟨9600, 12000⟩] 2 24000 =
        some [⟨0, 7200⟩, ⟨7200, 12000⟩] ∧
      durOf ⟨0, 7200⟩ 24000 = 3/10 ∧ durOf ⟨7200, 12000⟩ 24000 = 1/5 := by
  refine ⟨?_, by decide, by decide⟩
  rw [← normalizeRangesToCountExec_eq]
  decide

unseal Rat.mul Rat.inv Rat.add Rat.sub in
/-- Claim C4's counterexample: `normalizeRangesToCount` is not idempotent.
On input `[[0,35), [35,45)]` at rate 100 with target 5 the first application
yields `[[0,8), [8,17), [17,26), [26,35), [35,45)]`; re-applying the
function to that output merges its sub-0.25 s pieces back together and
re-splits them differently, yielding `[[0,6), [6,13), [13,26), ...]`. -/
theorem normalize_not_idempotent :
    ((normalizeRangesToCount [⟨0, 35⟩, ⟨35, 45⟩] 5 100).bind
        (fun o => normalizeRangesToCount o 5 100)) ≠
      normalizeRangesToCount [⟨0, 35⟩, ⟨35, 45⟩] 5 100 := by
  have h1 : normalizeRangesToCount [⟨0, 35⟩, ⟨35, 45⟩] 5 100 =
      some [⟨0, 8⟩, ⟨8, 17⟩, ⟨17, 26⟩, ⟨26, 35⟩, ⟨35, 45⟩] := by
    rw [← normalizeRangesToCountExec_eq]; decide
  have h2 : normalizeRangesToCount [⟨0, 8⟩, ⟨8, 17⟩, ⟨17, 26⟩, ⟨26, 35⟩, ⟨35, 45⟩] 5 100 =
      some [⟨0, 6⟩, ⟨6, 13⟩, ⟨13, 26⟩, ⟨26, 35⟩, ⟨35, 45⟩] := by
    rw [← normalizeRangesToCountExec_eq]; decide
  rw [h1, Option.some_bind, h2]
  decide

/-- Claim C4 amended: re-applying `normalizeRangesToCount` to its own output
with the same count and rate returns the output unchanged whenever no range
of that output except possibly the last is shorter than 0.25 s.  (In general
idempotence fails: see the counterexample.) -/
theorem normalize_idempotent_of_no_tiny (inputRanges o : List SampleRange) (count : ℕ)
    (sampleRate : ℚ)
    (hf : normalizeRangesToCount inputRanges count sampleRate = some o)
    (hbig : ∀ i, i + 1 < o.length → ¬ durOf (o.getD i ⟨0, 0⟩) sampleRate < 1/4) :
    normalizeRangesToCount o count sampleRate = some o := by
  have hlen := normalize_some_length inputRanges count sampleRate o hf
  rw [← hlen]
  exact normalize_eq_self_of_no_merge o sampleRate hbig

unseal Rat.mul Rat.inv Rat.add Rat.sub in
/-- Witness for `normalize_idempotent_of_no_tiny` at a concrete input. -/
theorem normalize_idempotent_of_no_tiny_witness :
    normalizeRangesToCount [⟨0, 7200⟩, ⟨7200, 14400⟩] 2 24000 =
        some [⟨0, 7200⟩, ⟨7200, 14400⟩] ∧
      (∀ i, i + 1 < ([⟨0, 7200⟩, ⟨7200, 14400⟩] : List SampleRange).length →
        ¬ durOf (([⟨0, 7200⟩, ⟨7200, 14400⟩] : List SampleRange).getD i ⟨0, 0⟩) 24000 < 1/4) ∧
      normalizeRangesToCount [⟨0, 7200⟩, ⟨7200, 14400⟩] 2 24000 =
        some [⟨0, 7200⟩, ⟨7200, 14400⟩] := by
  have hf : normalizeRangesToCount [⟨0, 7200⟩, ⟨7200, 14400⟩] 2 24000 =
      some [⟨0, 7200⟩, ⟨7200, 14400⟩] := by
    rw [← normalizeRangesToCountExec_eq]; decide
  have hbig : ∀ i, i + 1 < ([⟨0, 7200⟩, ⟨7200, 14400⟩] : List SampleRange).length →
      ¬ durOf (([⟨0, 7200⟩, ⟨7200, 14400⟩] : List SampleRange).getD i ⟨0, 0⟩) 24000 < 1/4 := by
    intro i hi
    have hi0 : i = 0 := by simp at hi; omega
    subst hi0
    decide
  exact ⟨hf, hbig,
    normalize_idempotent_of_no_tiny [⟨0, 7200⟩, ⟨7200, 14400⟩] _ 2 24000 hf hbig⟩

/-- Claim C10: phase 1 never merges the final range, because its scan stops
at index `length - 1`; a list whose every range except possibly the last is
at least 0.25 s long passes phase 1 unchanged, and when its length already
matches the target count the whole normalizer returns it unchanged, even if
its last range is shorter than 0.25 s. -/
theorem mergeTiny_skips_last (l : List SampleRange) (sampleRate : ℚ)
    (h : ∀ i, i + 1 < l.length → ¬ durOf (l.getD i ⟨0, 0⟩) sampleRate < 1/4) :
    mergeTiny sampleRate l = l ∧
      normalizeRangesToCount l l.length sampleRate = some l :=
  ⟨mergeTiny_eq_self sampleRate l h, normalize_eq_self_of_no_merge l sampleRate h⟩

unseal Rat.mul Rat.inv Rat.add Rat.sub in
/-- Witness for `mergeTiny_skips_last`: the last range is 800 samples
(1/30 s < 0.25 s) and is still left unmerged. -/
theorem mergeTiny_skips_last_witness :
    (∀ i, i + 1 < ([⟨0, 7200⟩, ⟨7200, 8000⟩] : List SampleRange).length →
      ¬ durOf (([⟨0, 7200⟩, ⟨7200, 8000⟩] : List SampleRange).getD i ⟨0, 0⟩) 24000 < 1/4) ∧
      mergeTiny 24000 [⟨0, 7200⟩, ⟨7200, 8000⟩] = [⟨0, 7200⟩, ⟨7200, 8000⟩] ∧
      normalizeRangesToCount [⟨0, 7200⟩, ⟨7200, 8000⟩] 2 24000 =
        some [⟨0, 7200⟩, ⟨7200, 8000⟩] := by
  have h : ∀ i, i + 1 < ([⟨0, 7200⟩, ⟨7200, 8000⟩] : List SampleRange).length →
      ¬ durOf (([⟨0, 7200⟩, ⟨7200, 8000⟩] : List SampleRange).getD i ⟨0, 0⟩) 24000 < 1/4 := by
    intro i hi
    have hi0 : i = 0 := by simp at hi; omega
    subst hi0
    decide
  have := mergeTiny_skips_last [⟨0, 7200⟩, ⟨7200, 8000⟩] 24000 h
  exact ⟨h, this.1, this.2⟩

/-- The crash half of claim C9: with an empty range list and a positive
target count, phase 3 dereferences `out[0]` of an empty array and throws;
the embedded call returns `none` instead of any range list. -/
theorem normalize_nil_crashes (count : ℕ) (sampleRate : ℚ) (hc : 0 < count) :
    normalizeRangesToCount [] count sampleRate = none := by
  unfold normalizeRangesToCount
  rw [mergeTiny]
  rw [mergeDown]
  have h1 : ¬ (([] : List SampleRange).length > count ∧ ([] : List SampleRange).length > 1) := by
    simp
  rw [dif_neg h1]
  rw [splitUp]
  have h2 : ([] : List SampleRange).length < count := by simpa using hc
  rw [dif_pos h2, dif_pos rfl]
  rfl

/-! ### Store-passing embedding of `normalizeRangesToCount`

`let out = [...inputRanges]` copies the caller's array but shares the range
objects; `out[i].endSample = ...` then mutates those shared objects.  This
embedding makes that explicit: a store (`List SampleRange`) holds the
objects, pointers are store indices, the local array is a pointer list, and
phase 3's `left`/`right` literals are fresh allocations appended to the
store.  The caller's view after the call is the final store read at the
caller's own pointers. -/

/-- Read a range object from the store (`⟨0, 0⟩` stands for JavaScript's
`undefined`; the source never reads a dangling pointer on the inputs the
theorems use). -/
def storeGet (σ : List SampleRange) (p : ℕ) : SampleRange := σ.getD p ⟨0, 0⟩

/-- Phase 1 on the store: `out[i].endSample = out[i + 1].endSample` becomes
a store update at pointer `out[i]` (reading both objects from the current
store first, as the assignment does). -/
def mergeTinyHeap (sampleRate : ℚ) :
    List SampleRange → List ℕ → List SampleRange × List ℕ
  | σ, p :: q :: rest =>
    if durOf (storeGet σ p) sampleRate < 1/4 then
      mergeTinyHeap sampleRate
        (σ.set p { startSample := (storeGet σ p).startSample,
                   endSample := (storeGet σ q).endSample }) (p :: rest)
    else
      let r := mergeTinyHeap sampleRate σ (q :: rest)
      (r.1, p :: r.2)
  | σ, out => (σ, out)
  termination_by _ out => out.length

/-- `mergeAt` on pointers: mutate the object at pointer `out[k]`, drop
pointer `k + 1`. -/
def mergeAtHeap (σ : List SampleRange) : List ℕ → ℕ → List SampleRange × List ℕ
  | p :: q :: rest, 0 =>
    (σ.set p { startSample := (storeGet σ p).startSample,
               endSample := (storeGet σ q).endSample }, p :: rest)
  | p :: rest, k + 1 =>
    let r := mergeAtHeap σ rest k
    (r.1, p :: r.2)
  | out, _ => (σ, out)

/-- One phase-2 iteration on the store.  The shortest-duration scan reads
the pointed-to objects in order, which is exactly the scan of `minDurIdx`
over the dereferenced list. -/
def mergeStepHeap (sampleRate : ℚ) (σ : List SampleRange) (out : List ℕ) :
    List SampleRange × List ℕ :=
  let m := minDurIdx sampleRate (out.map (storeGet σ))
  if m < out.length - 1 then mergeAtHeap σ out m else mergeAtHeap σ out (m - 1)

theorem mergeAtHeap_out_length (σ : List SampleRange) :
    ∀ (out : List ℕ) (k : ℕ), k + 1 < out.length →
      (mergeAtHeap σ out k).2.length + 1 = out.length
  | [], k, h => by simp at h
  | [p], k, h => by simp at h
  | p :: q :: rest, 0, _ => by rw [mergeAtHeap]; rfl
  | p :: q :: rest, k + 1, h => by
    rw [mergeAtHeap]
    have h' : k + 1 < (q :: rest).length := by simpa using h
    have := mergeAtHeap_out_length σ (q :: rest) k h'
    simpa using this

theorem mergeStepHeap_out_length (sampleRate : ℚ) (σ : List SampleRange) (out : List ℕ)
    (h : 2 ≤ out.length) :
    (mergeStepHeap sampleRate σ out).2.length + 1 = out.length := by
  have hne : out.map (storeGet σ) ≠ [] := by
    cases out <;> simp_all
  have hm := minDurIdx_lt_length sampleRate (out.map (storeGet σ)) hne
  rw [List.length_map] at hm
  unfold mergeStepHeap
  by_cases hc : minDurIdx sampleRate (out.map (storeGet σ)) < out.length - 1
  · rw [if_pos hc]
    exact mergeAtHeap_out_length σ out _ (by omega)
  · rw [if_neg hc]
    exact mergeAtHeap_out_length σ out _ (by omega)

/-- Phase 2 on the store. -/
def mergeDownHeap (sampleRate : ℚ) (count : ℕ) (σ : List SampleRange) (out : List ℕ) :
    List SampleRange × List ℕ :=
  if h : out.length > count ∧ out.length > 1 then
    mergeDownHeap sampleRate count (mergeStepHeap sampleRate σ out).1
      (mergeStepHeap sampleRate σ out).2
  else (σ, out)
  termination_by out.length
  decreasing_by
    have := mergeStepHeap_out_length sampleRate σ out (by omega)
    omega

/-- `out.splice(maxIdx, 1, left, right)` on pointers: the two fresh objects
live at store indices `base` and `base + 1`. -/
def splicePtrs : List ℕ → ℕ → ℕ → List ℕ
  | _ :: rest, 0, base => base :: (base + 1) :: rest
  | p :: rest, k + 1, base => p :: splicePtrs rest k base
  | [], _, _ => []

theorem splicePtrs_length :
    ∀ (out : List ℕ) (k base : ℕ), k < out.length →
      (splicePtrs out k base).length = out.length + 1
  | [], k, base, h => by simp at h
  | p :: rest, 0, base, _ => by rw [splicePtrs]; rfl
  | p :: rest, k + 1, base, h => by
    rw [splicePtrs]
    have h' : k < rest.length := by simpa using h
    have := splicePtrs_length rest k base h'
    simp [this]

/-- One phase-3 iteration on the store: split the pointed-to longest range,
allocating the two halves as fresh objects at the end of the store. -/
def splitStepHeap (sampleRate : ℚ) (σ : List SampleRange) (out : List ℕ) :
    List SampleRange × List ℕ :=
  let m := maxDurIdx sampleRate (out.map (storeGet σ))
  let seg := storeGet σ (out.getD m 0)
  let mid := (seg.startSample + seg.endSample) / 2
  (σ ++ [{ startSample := seg.startSample, endSample := mid },
         { startSample := mid, endSample := seg.endSample }],
   splicePtrs out m σ.length)

theorem splitStepHeap_out_length (sampleRate : ℚ) (σ : List SampleRange) (out : List ℕ)
    (h : out ≠ []) :
    (splitStepHeap sampleRate σ out).2.length = out.length + 1 := by
  have hne : out.map (storeGet σ) ≠ [] := by cases out <;> simp_all
  have hm := maxDurIdx_lt_length sampleRate (out.map (storeGet σ)) hne
  rw [List.length_map] at hm
  exact splicePtrs_length out _ σ.length hm

/-- Phase 3 on the store (the empty-array crash is `none`, as in the value
embedding). -/
def splitUpHeap (sampleRate : ℚ) (count : ℕ) (σ : List SampleRange) (out : List ℕ) :
    Option (List SampleRange × List ℕ) :=
  if h : out.length < count then
    if hne : out = [] then none
    else splitUpHeap sampleRate count (splitStepHeap sampleRate σ out).1
      (splitStepHeap sampleRate σ out).2
  else some (σ, out)
  termination_by count - out.length
  decreasing_by
    have := splitStepHeap_out_length sampleRate σ out hne
    omega

/-- `normalizeRangesToCount` on the store: the caller passes its own store
`σ` and its array of pointers `inputRanges`; `[...inputRanges]` copies the
pointer array (sharing the objects), and the final `out.slice(0, count)`
copies pointers again.  The result is the final store and the returned
pointer list. -/
def normalizeRangesToCountHeap (σ : List SampleRange) (inputRanges : List ℕ) (count : ℕ)
    (sampleRate : ℚ) : Option (List SampleRange × List ℕ) :=
  (splitUpHeap sampleRate count
      (mergeDownHeap sampleRate count (mergeTinyHeap sampleRate σ inputRanges).1
        (mergeTinyHeap sampleRate σ inputRanges).2).1
      (mergeDownHeap sampleRate count (mergeTinyHeap sampleRate σ inputRanges).1
        (mergeTinyHeap sampleRate σ inputRanges).2).2).map
    (fun r => (r.1, r.2.take count))

theorem mergeTinyHeap_nil (sampleRate : ℚ) (σ : List SampleRange) :
    mergeTinyHeap sampleRate σ [] = (σ, []) := by
  rw [mergeTinyHeap]
  intro a b c hxy
  simp at hxy

theorem mergeTinyHeap_single (sampleRate : ℚ) (σ : List SampleRange) (p : ℕ) :
    mergeTinyHeap sampleRate σ [p] = (σ, [p]) := by
  rw [mergeTinyHeap]
  intro a b c hxy
  simp at hxy

theorem mergeTinyHeap_no_merge (sampleRate : ℚ) :
    ∀ (σ : List SampleRange) (out : List ℕ),
      (∀ p ∈ out, ¬ durOf (storeGet σ p) sampleRate < 1/4) →
      mergeTinyHeap sampleRate σ out = (σ, out)
  | σ, [], _ => mergeTinyHeap_nil sampleRate σ
  | σ, [p], _ => mergeTinyHeap_single sampleRate σ p
  | σ, p :: q :: rest, h => by
    rw [mergeTinyHeap, if_neg (h p (by simp))]
    show ((mergeTinyHeap sampleRate σ (q :: rest)).1,
      p :: (mergeTinyHeap sampleRate σ (q :: rest)).2) = _
    rw [mergeTinyHeap_no_merge sampleRate σ (q :: rest) (fun x hx => h x (by simp [hx]))]
  termination_by _ out => out.length

theorem splitStepHeap_store (sampleRate : ℚ) (σ : List SampleRange) (out : List ℕ) :
    ∃ lr : List SampleRange, (splitStepHeap sampleRate σ out).1 = σ ++ lr :=
  ⟨_, rfl⟩

theorem splitUpHeap_preserves (sampleRate : ℚ) (count : ℕ) (σ : List SampleRange)
    (out : List ℕ) (hne : out ≠ []) :
    ∃ σ' out', splitUpHeap sampleRate count σ out = some (σ', out') ∧
      ∀ p, p < σ.length → storeGet σ' p = storeGet σ p := by
  suffices hgen : ∀ (n : ℕ) (σ : List SampleRange) (out : List ℕ),
      count - out.length ≤ n → out ≠ [] →
      ∃ σ' out', splitUpHeap sampleRate count σ out = some (σ', out') ∧
        ∀ p, p < σ.length → storeGet σ' p = storeGet σ p from
    hgen (count - out.length) σ out le_rfl hne
  intro n
  induction n with
  | zero =>
    intro σ out hn hne
    rw [splitUpHeap, dif_neg (by omega)]
    exact ⟨σ, out, rfl, fun p hp => rfl⟩
  | succ n ih =>
    intro σ out hn hne
    rw [splitUpHeap]
    by_cases hc : out.length < count
    · rw [dif_pos hc, dif_neg hne]
      have hlen := splitStepHeap_out_length sampleRate σ out hne
      have hne2 : (splitStepHeap sampleRate σ out).2 ≠ [] := by
        intro hcon
        rw [hcon] at hlen
        simp at hlen
      obtain ⟨σ', out', heq, hpres⟩ := ih (splitStepHeap sampleRate σ out).1
        (splitStepHeap sampleRate σ out).2 (by omega) hne2
      obtain ⟨lr, hlr⟩ := splitStepHeap_store sampleRate σ out
      refine ⟨σ', out', heq, fun p hp => ?_⟩
      have h1 : storeGet (splitStepHeap sampleRate σ out).1 p = storeGet σ p := by
        rw [hlr]
        unfold storeGet
        exact List.getD_append _ _ _ _ hp
      have h2 := hpres p (by rw [hlr, List.length_append]; omega)
      rw [h2, h1]
    · rw [dif_neg hc]
      exact ⟨σ, out, rfl, fun p hp => rfl⟩

/-- Claim C3 amended: `normalizeRangesToCount` does mutate the caller's
range objects in place when a merge fires (see the counterexample); the
no-side-effects statement holds exactly when no merge can fire — when every
input range lasts at least 0.25 s and the input already has at most
`targetCount` ranges, every object in the caller's store is unchanged (the
split phase only allocates fresh objects). -/
theorem normalizeHeap_preserves_objects (σ : List SampleRange) (inputRanges : List ℕ)
    (count : ℕ) (sampleRate : ℚ)
    (hne : inputRanges ≠ [])
    (hlen : inputRanges.length ≤ count)
    (hdur : ∀ p ∈ inputRanges, ¬ durOf (storeGet σ p) sampleRate < 1/4) :
    ∃ σ' out',
      normalizeRangesToCountHeap σ inputRanges count sampleRate = some (σ', out') ∧
      ∀ p, p < σ.length → storeGet σ' p = storeGet σ p := by
  have hmt : mergeTinyHeap sampleRate σ inputRanges = (σ, inputRanges) :=
    mergeTinyHeap_no_merge sampleRate σ inputRanges hdur
  have hmd : mergeDownHeap sampleRate count σ inputRanges = (σ, inputRanges) := by
    rw [mergeDownHeap]
    exact dif_neg (by omega)
  obtain ⟨σ', out', heq, hpres⟩ := splitUpHeap_preserves sampleRate count σ inputRanges hne
  refine ⟨σ', out'.take count, ?_, hpres⟩
  unfold normalizeRangesToCountHeap
  simp only [hmt]
  simp only [hmd]
  rw [heq]
  rfl

unseal Rat.mul Rat.inv Rat.add Rat.sub in
/-- Witness for `normalizeHeap_preserves_objects`: two 0.3 s objects,
target 2 — the caller's store is untouched. -/
theorem normalizeHeap_preserves_objects_witness :
    (([0, 1] : List ℕ) ≠ []) ∧ (([0, 1] : List ℕ).length ≤ 2) ∧
      (∀ p ∈ ([0, 1] : List ℕ),
        ¬ durOf (storeGet [⟨0, 7200⟩, ⟨7200, 14400⟩] p) 24000 < 1/4) ∧
      ∃ σ' out',
        normalizeRangesToCountHeap [⟨0, 7200⟩, ⟨7200, 14400⟩] [0, 1] 2 24000 =
          some (σ', out') ∧
        ∀ p, p < ([⟨0, 7200⟩, ⟨7200, 14400⟩] : List SampleRange).length →
          storeGet σ' p = storeGet [⟨0, 7200⟩, ⟨7200, 14400⟩] p :=
  ⟨by decide, by decide, by decide,
    normalizeHeap_preserves_objects [⟨0, 7200⟩, ⟨7200, 14400⟩] [0, 1] 2 24000
      (by decide) (by decide) (by decide)⟩

/-- Fuel-indexed twin of `mergeTinyHeap`. -/
def mergeTinyHeapF (sampleRate : ℚ) :
    ℕ → List SampleRange → List ℕ → List SampleRange × List ℕ
  | _, σ, [] => (σ, [])
  | _, σ, [p] => (σ, [p])
  | 0, σ, out => (σ, out)
  | fuel + 1, σ, p :: q :: rest =>
    if durOf (storeGet σ p) sampleRate < 1/4 then
      mergeTinyHeapF sampleRate fuel
        (σ.set p { startSample := (storeGet σ p).startSample,
                   endSample := (storeGet σ q).endSample }) (p :: rest)
    else
      let r := mergeTinyHeapF sampleRate fuel σ (q :: rest)
      (r.1, p :: r.2)

theorem mergeTinyHeapF_eq (sampleRate : ℚ) :
    ∀ (fuel : ℕ) (σ : List SampleRange) (out : List ℕ), out.length ≤ fuel →
      mergeTinyHeapF sampleRate fuel σ out = mergeTinyHeap sampleRate σ out
  | 0, σ, [], _ => by rw [mergeTinyHeapF, mergeTinyHeap_nil]
  | fuel + 1, σ, [], _ => by rw [mergeTinyHeapF, mergeTinyHeap_nil]
  | 0, σ, [p], _ => by rw [mergeTinyHeapF, mergeTinyHeap_single]
  | fuel + 1, σ, [p], _ => by rw [mergeTinyHeapF, mergeTinyHeap_single]
  | 0, σ, p :: q :: rest, h => by simp at h
  | fuel + 1, σ, p :: q :: rest, h => by
    have h' : rest.length + 1 ≤ fuel := by simpa using h
    rw [mergeTinyHeapF, mergeTinyHeap]
    by_cases hc : durOf (storeGet σ p) sampleRate < 1/4
    · rw [if_pos hc, if_pos hc,
        mergeTinyHeapF_eq sampleRate fuel _ (p :: rest) (by simpa using h')]
    · rw [if_neg hc, if_neg hc,
        mergeTinyHeapF_eq sampleRate fuel σ (q :: rest) (by simpa using h')]

/-- Fuel-indexed twin of `mergeDownHeap`. -/
def mergeDownHeapF (sampleRate : ℚ) (count : ℕ) :
    ℕ → List SampleRange → List ℕ → List SampleRange × List ℕ
  | 0, σ, out => (σ, out)
  | fuel + 1, σ, out =>
    if out.length > count ∧ out.length > 1 then
      mergeDownHeapF sampleRate count fuel (mergeStepHeap sampleRate σ out).1
        (mergeStepHeap sampleRate σ out).2
    else (σ, out)

theorem mergeDownHeapF_eq (sampleRate : ℚ) (count : ℕ) :
    ∀ (fuel : ℕ) (σ : List SampleRange) (out : List ℕ), out.length ≤ fuel →
      mergeDownHeapF sampleRate count fuel σ out = mergeDownHeap sampleRate count σ out
  | 0, σ, out, h => by
    have : out = [] := by cases out <;> simp_all
    subst this
    rw [mergeDownHeapF, mergeDownHeap]
    rw [dif_neg (by simp)]
  | fuel + 1, σ, out, h => by
    rw [mergeDownHeapF, mergeDownHeap]
    by_cases hc : out.length > count ∧ out.length > 1
    · rw [if_pos hc, dif_pos hc]
      have hlen := mergeStepHeap_out_length sampleRate σ out (by omega)
      exact mergeDownHeapF_eq sampleRate count fuel _ _ (by omega)
    · rw [if_neg hc, dif_neg hc]

/-- Fuel-indexed twin of `splitUpHeap`. -/
def splitUpHeapF (sampleRate : ℚ) (count : ℕ) :
    ℕ → List SampleRange → List ℕ → Option (List SampleRange × List ℕ)
  | 0, σ, out => if out.length < count then none else some (σ, out)
  | fuel + 1, σ, out =>
    if out.length < count then
      if out = [] then none
      else splitUpHeapF sampleRate count fuel (splitStepHeap sampleRate σ out).1
        (splitStepHeap sampleRate σ out).2
    else some (σ, out)

theorem splitUpHeapF_eq (sampleRate : ℚ) (count : ℕ) :
    ∀ (fuel : ℕ) (σ : List SampleRange) (out : List ℕ), count - out.length ≤ fuel →
      splitUpHeapF sampleRate count fuel σ out = splitUpHeap sampleRate count σ out
  | 0, σ, out, h => by
    rw [splitUpHeapF, splitUpHeap]
    have : ¬ out.length < count := by omega
    rw [if_neg this, dif_neg this]
  | fuel + 1, σ, out, h => by
    rw [splitUpHeapF, splitUpHeap]
    by_cases hc : out.length < count
    · rw [if_pos hc, dif_pos hc]
      by_cases hne : out = []
      · rw [if_pos hne, dif_pos hne]
      · rw [if_neg hne, dif_neg hne]
        have hlen := splitStepHeap_out_length sampleRate σ out hne
        exact splitUpHeapF_eq sampleRate count fuel _ _ (by omega)
    · rw [if_neg hc, dif_neg hc]

/-- Executable form of `normalizeRangesToCountHeap` (used only to evaluate
the equal store-passing embedding on concrete inputs). -/
def normalizeRangesToCountHeapExec (σ : List SampleRange) (inputRanges : List ℕ)
    (count : ℕ) (sampleRate : ℚ) : Option (List SampleRange × List ℕ) :=
  (splitUpHeapF sampleRate count count
      (mergeDownHeapF sampleRate count
        (mergeTinyHeapF sampleRate inputRanges.length σ inputRanges).2.length
        (mergeTinyHeapF sampleRate inputRanges.length σ inputRanges).1
        (mergeTinyHeapF sampleRate inputRanges.length σ inputRanges).2).1
      (mergeDownHeapF sampleRate count
        (mergeTinyHeapF sampleRate inputRanges.length σ inputRanges).2.length
        (mergeTinyHeapF sampleRate inputRanges.length σ inputRanges).1
        (mergeTinyHeapF sampleRate inputRanges.length σ inputRanges).2).2).map
    (fun r => (r.1, r.2.take count))

theorem normalizeRangesToCountHeapExec_eq (σ : List SampleRange) (inputRanges : List ℕ)
    (count : ℕ) (sampleRate : ℚ) :
    normalizeRangesToCountHeapExec σ inputRanges count sampleRate =
      normalizeRangesToCountHeap σ inputRanges count sampleRate := by
  unfold normalizeRangesToCountHeapExec normalizeRangesToCountHeap
  rw [mergeTinyHeapF_eq sampleRate inputRanges.length σ inputRanges le_rfl,
    mergeDownHeapF_eq sampleRate count _ _ _ le_rfl,
    splitUpHeapF_eq sampleRate count count _ _ (by omega)]

unseal Rat.mul Rat.inv Rat.add Rat.sub in
/-- Claim C3's counterexample: on the store `[[0,1), [1,10)]` with pointers
`[0, 1]`, target 2 at rate 10, the phase-1 merge mutates the caller's first
range object in place from `[0,1)` to `[0,10)`. -/
theorem normalizeHeap_mutates_input :
    (normalizeRangesToCountHeap [⟨0, 1⟩, ⟨1, 10⟩] [0, 1] 2 10).map
        (fun r => storeGet r.1 0) = some ⟨0, 10⟩ ∧
      ({ startSample := 0, endSample := 10 } : SampleRange) ≠
        ({ startSample := 0, endSample := 1 } : SampleRange) := by
  constructor
  · rw [← normalizeRangesToCountHeapExec_eq]
    decide
  · decide

/-! ### The silence segmenter (`splitAudioBySilence`, `audioUtils.ts` lines
72-130)

The buffer is mono: `getChannelData(0)` is the sample list.  The RMS
comparison `Math.sqrt(sum / frameSize) < rmsThreshold` is embedded as the
equivalent test on the mean square (see the file header). -/

/-- The engine's `AudioBuffer`: a mono buffer is its channel-0 data plus a
sample rate; `length` is the sample count. -/
structure AudioBuffer where
  sampleRate : ℚ
  samples : List ℚ
deriving Repr, DecidableEq

/-- The options record of `splitAudioBySilence`, with all four fields
present (the source's `??` defaults are a caller concern). -/
structure SegmentationConfig where
  rmsThreshold : ℚ
  minSilenceMs : ℚ
  frameMs : ℚ
  hopMs : ℚ
deriving Repr, DecidableEq

/-- `Math.max(1, Math.floor(sampleRate * (frameMs / 1000)))`. -/
def frameSizeOf (sampleRate frameMs : ℚ) : ℕ :=
  (max 1 ⌊sampleRate * (frameMs / 1000)⌋).toNat

/-- `Math.max(1, Math.floor(sampleRate * (hopMs / 1000)))`. -/
def hopSizeOf (sampleRate hopMs : ℚ) : ℕ :=
  (max 1 ⌊sampleRate * (hopMs / 1000)⌋).toNat

/-- `Math.ceil(minSilenceMs / hopMs)`. -/
def minSilenceFramesOf (minSilenceMs hopMs : ℚ) : ℤ :=
  ⌈minSilenceMs / hopMs⌉

theorem one_le_frameSizeOf (sampleRate frameMs : ℚ) : 1 ≤ frameSizeOf sampleRate frameMs := by
  unfold frameSizeOf
  have : (1 : ℤ) ≤ max 1 ⌊sampleRate * (frameMs / 1000)⌋ := le_max_left 1 _
  omega

theorem one_le_hopSizeOf (sampleRate hopMs : ℚ) : 1 ≤ hopSizeOf sampleRate hopMs := by
  unfold hopSizeOf
  have : (1 : ℤ) ≤ max 1 ⌊sampleRate * (hopMs / 1000)⌋ := le_max_left 1 _
  omega

/-- Number of iterations of `for (let start = 0; start + frameSize <=
data.length; start += hopSize)`. -/
def numFramesOf (n frameSize hop : ℕ) : ℕ :=
  if frameSize ≤ n then (n - frameSize) / hop + 1 else 0

/-- The mean square of one analysis frame (`sum += v * v` over the frame,
then `/ frameSize`); the source takes `Math.sqrt` of this before comparing,
which the embedding folds into the threshold test. -/
def frameMeanSq (data : List ℚ) (start frameSize : ℕ) : ℚ :=
  ((List.range frameSize).map
    (fun j => data.getD (start + j) 0 * data.getD (start + j) 0)).sum / (frameSize : ℚ)

/-- The per-frame loudness profile (`framesRms`, squared). -/
def framesMeanSq (data : List ℚ) (frameSize hop : ℕ) : List ℚ :=
  (List.range (numFramesOf data.length frameSize hop)).map
    (fun i => frameMeanSq data (i * hop) frameSize)

/-- `Math.sqrt m < θ`, decidably: for `m ≥ 0` this is `0 ≤ θ ∧ m < θ²`. -/
def isSilentFrame (m θ : ℚ) : Bool :=
  decide (0 ≤ θ) && decide (m < θ * θ)

/-- `framesRms.map(r => r < rmsThreshold)`. -/
def isSilenceList (data : List ℚ) (frameSize hop : ℕ) (θ : ℚ) : List Bool :=
  (framesMeanSq data frameSize hop).map (fun m => isSilentFrame m θ)

/-- The boundary-emission loop (`audioUtils.ts` lines 105-118): walk the
silence flags keeping a consecutive-run counter `run`; the moment `run`
reaches `minSilenceFrames` exactly, emit
`(i - Math.floor(minSilenceFrames / 2)) * hopSize` (the `ℤ` division by 2 is
that floor).  `i` is the absolute index of the head frame. -/
def boundariesLoop (msf : ℤ) (hop : ℕ) : List Bool → ℕ → ℕ → List ℤ
  | [], _, _ => []
  | b :: rest, i, run =>
    if b then
      if ((run + 1 : ℕ) : ℤ) = msf then
        ((i : ℤ) - msf / 2) * hop :: boundariesLoop msf hop rest (i + 1) (run + 1)
      else boundariesLoop msf hop rest (i + 1) (run + 1)
    else boundariesLoop msf hop rest (i + 1) 0

/-- The boundary samples emitted for a buffer and config. -/
def silenceBoundaries (buffer : AudioBuffer) (cfg : SegmentationConfig) : List ℤ :=
  boundariesLoop (minSilenceFramesOf cfg.minSilenceMs cfg.hopMs)
    (hopSizeOf buffer.sampleRate cfg.hopMs)
    (isSilenceList buffer.samples (frameSizeOf buffer.sampleRate cfg.frameMs)
      (hopSizeOf buffer.sampleRate cfg.hopMs) cfg.rmsThreshold) 0 0

/-- The candidate-filter loop (`audioUtils.ts` lines 120-128): from the cut
positions `[0, ...boundaries, data.length]` keep each consecutive pair whose
width exceeds `sampleRate * 0.2` samples. -/
def collectSegments (sampleRate : ℚ) : List ℤ → List SampleRange
  | [] => []
  | [_] => []
  | a :: b :: rest =>
    (if ((b - a : ℤ) : ℚ) > sampleRate * (1/5) then
       [{ startSample := a, endSample := b }] else []) ++
      collectSegments sampleRate (b :: rest)

/-- `splitAudioBySilence(buffer, options)` from `audioUtils.ts` lines
72-130. -/
def splitAudioBySilence (buffer : AudioBuffer) (cfg : SegmentationConfig) :
    List SampleRange :=
  collectSegments buffer.sampleRate
    (0 :: silenceBoundaries buffer cfg ++ [(buffer.samples.length : ℤ)])

/-! ### The PCM codec (`decode`, `decodeAudioData`,
`encodeAudioBufferToPCMBase64`; `audioUtils.ts` lines 19-67)

`encodeAudioBufferToPCMBase64` clamps each sample to `[-1, 1]`, scales it
asymmetrically (`s < 0 ? s * 32768 : s * 32767`), stores it in an
`Int16Array` (JavaScript `ToInt16`: truncate toward zero, wrap modulo
`2^16`), views the result as little-endian bytes and base64-encodes them
(`Buffer.toString('base64')`).  `decode` is `Buffer.from(base64, 'base64')`,
and `decodeAudioData` views the bytes as an `Int16Array` (which raises a
`RangeError` when the byte length is odd — embedded as `none`), and divides
each sample by 32768.  Strings are embedded as `List Char`. -/

/-- The standard base64 alphabet character for a sextet `0 ≤ n < 64`. -/
def base64Char (n : ℕ) : Char :=
  if n < 26 then Char.ofNat (65 + n)
  else if n < 52 then Char.ofNat (97 + (n - 26))
  else if n < 62 then Char.ofNat (48 + (n - 52))
  else if n = 62 then '+'
  else '/'

/-- The sextet of a base64 alphabet character. -/
def base64Value (c : Char) : ℕ :=
  if 65 ≤ c.toNat ∧ c.toNat ≤ 90 then c.toNat - 65
  else if 97 ≤ c.toNat ∧ c.toNat ≤ 122 then c.toNat - 97 + 26
  else if 48 ≤ c.toNat ∧ c.toNat ≤ 57 then c.toNat - 48 + 52
  else if c = '+' then 62
  else 63

/-- `Buffer.toString('base64')`: encode bytes three at a time with `=`
padding. -/
def base64EncodeBytes : List ℕ → List Char
  | [] => []
  | [a] => [base64Char (a / 4), base64Char (a % 4 * 16), '=', '=']
  | [a, b] =>
    [base64Char (a / 4), base64Char (a % 4 * 16 + b / 16), base64Char (b % 16 * 4), '=']
  | a :: b :: c :: rest =>
    base64Char (a / 4) :: base64Char (a % 4 * 16 + b / 16) ::
      base64Char (b % 16 * 4 + c / 64) :: base64Char (c % 64) :: base64EncodeBytes rest

/-- `decode` (`Buffer.from(base64, 'base64')` wrapped in a `Uint8Array`,
`audioUtils.ts` lines 22-25): decode four characters at a time, honoring
`=` padding. -/
def base64DecodeChars : List Char → List ℕ
  | c1 :: c2 :: c3 :: c4 :: rest =>
    if c3 = '=' then [base64Value c1 * 4 + base64Value c2 / 16]
    else if c4 = '=' then
      [base64Value c1 * 4 + base64Value c2 / 16,
       base64Value c2 % 16 * 16 + base64Value c3 / 4]
    else
      (base64Value c1 * 4 + base64Value c2 / 16) ::
        (base64Value c2 % 16 * 16 + base64Value c3 / 4) ::
          (base64Value c3 % 4 * 64 + base64Value c4) :: base64DecodeChars rest
  | _ => []

/-- `Math.max(-1, Math.min(1, s))`. -/
def clampSample (x : ℚ) : ℚ := max (-1) (min 1 x)

/-- Truncation toward zero, the first step of JavaScript's `ToInt16`. -/
def truncQ (x : ℚ) : ℤ := if 0 ≤ x then ⌊x⌋ else ⌈x⌉

/-- JavaScript `ToInt16`: truncate toward zero, wrap into `[-2^15, 2^15)`
(what storing into an `Int16Array` does). -/
def toInt16 (x : ℚ) : ℤ := (truncQ x + 32768) % 65536 - 32768

/-- The per-sample quantizer of `encodeAudioBufferToPCMBase64`
(`audioUtils.ts` lines 61-63): clamp, scale asymmetrically, convert to a
16-bit integer. -/
def quantizeSample (x : ℚ) : ℤ :=
  toInt16 (if clampSample x < 0 then clampSample x * 32768 else clampSample x * 32767)

/-- The two little-endian bytes of a 16-bit integer as seen through the
`Uint8Array` view of the `Int16Array` buffer. -/
def int16ToBytes (v : ℤ) : List ℕ :=
  [(v % 65536).toNat % 256, (v % 65536).toNat / 256]

/-- The byte stream of `encodeAudioBufferToPCMBase64` before base64:
the `Uint8Array` view of the quantized `Int16Array`. -/
def encodeAudioBufferToPCMBytes (buffer : AudioBuffer) : List ℕ :=
  buffer.samples.flatMap (fun s => int16ToBytes (quantizeSample s))

/-- `encodeAudioBufferToPCMBase64(buffer)` (`audioUtils.ts` lines 58-67). -/
def encodeAudioBufferToPCMBase64 (buffer : AudioBuffer) : List Char :=
  base64EncodeBytes (encodeAudioBufferToPCMBytes buffer)

/-- The signed 16-bit value of a little-endian byte pair. -/
def int16OfPair (b0 b1 : ℕ) : ℤ :=
  if b0 + 256 * b1 < 32768 then ((b0 + 256 * b1 : ℕ) : ℤ)
  else ((b0 + 256 * b1 : ℕ) : ℤ) - 65536

/-- `new Int16Array(data.buffer)`: read the bytes two at a time,
little-endian. -/
def bytesToInt16List : List ℕ → List ℤ
  | b0 :: b1 :: rest => int16OfPair b0 b1 :: bytesToInt16List rest
  | _ => []

/-- `decodeAudioData(data, sampleRate, numChannels)` (`audioUtils.ts` lines
30-53).  Constructing an `Int16Array` over a buffer of odd byte length
throws a `RangeError` (embedded as `none`).  `frameCount` is
`dataInt16.length / numChannels` and the loop `i < frameCount` runs for
`⌈dataInt16.length / numChannels⌉` integer values of `i`; the engine always
calls this with `numChannels = 1` (mono), for which every read
`dataInt16[i * numChannels]` is in range (for other channel counts a JS
out-of-range read would give `NaN`; the embedding reads 0, a case no
theorem below relies on). -/
def decodeAudioData (data : List ℕ) (sampleRate : ℚ) (numChannels : ℕ) :
    Option AudioBuffer :=
  if data.length % 2 ≠ 0 then none
  else
    let dataInt16 := bytesToInt16List data
    let frameCount := (dataInt16.length + numChannels - 1) / numChannels
    some { sampleRate := sampleRate,
           samples := (List.range frameCount).map
             (fun i => ((dataInt16.getD (i * numChannels) 0 : ℤ) : ℚ) / 32768) }

theorem base64Value_base64Char : ∀ n, n < 64 → base64Value (base64Char n) = n := by decide

theorem base64Char_ne_pad : ∀ n, n < 64 → base64Char n ≠ '=' := by decide

/-- Base64 round-trip: `Buffer.from(buf.toString('base64'), 'base64')` is
the identity on byte lists. -/
theorem base64_roundtrip :
    ∀ bs : List ℕ, (∀ b ∈ bs, b < 256) → base64DecodeChars (base64EncodeBytes bs) = bs
  | [], _ => rfl
  | [a], h => by
    have ha : a < 256 := h a (by simp)
    rw [base64EncodeBytes, base64DecodeChars, if_pos rfl,
      base64Value_base64Char _ (by omega), base64Value_base64Char _ (by omega)]
    have : a / 4 * 4 + a % 4 * 16 / 16 = a := by omega
    rw [this]
  | [a, b], h => by
    have ha : a < 256 := h a (by simp)
    have hb : b < 256 := h b (by simp)
    rw [base64EncodeBytes, base64DecodeChars,
      if_neg (base64Char_ne_pad (b % 16 * 4) (by omega)), if_pos rfl,
      base64Value_base64Char _ (by omega), base64Value_base64Char _ (by omega),
      base64Value_base64Char _ (by omega)]
    have h1 : a / 4 * 4 + (a % 4 * 16 + b / 16) / 16 = a := by omega
    have h2 : (a % 4 * 16 + b / 16) % 16 * 16 + b % 16 * 4 / 4 = b := by omega
    rw [h1, h2]
  | a :: b :: c :: rest, h => by
    have ha : a < 256 := h a (by simp)
    have hb : b < 256 := h b (by simp)
    have hc : c < 256 := h c (by simp)
    rw [base64EncodeBytes, base64DecodeChars,
      if_neg (base64Char_ne_pad (b % 16 * 4 + c / 64) (by omega)),
      if_neg (base64Char_ne_pad (c % 64) (by omega)),
      base64Value_base64Char _ (by omega), base64Value_base64Char _ (by omega),
      base64Value_base64Char _ (by omega), base64Value_base64Char _ (by omega)]
    have h1 : a / 4 * 4 + (a % 4 * 16 + b / 16) / 16 = a := by omega
    have h2 : (a % 4 * 16 + b / 16) % 16 * 16 + (b % 16 * 4 + c / 64) / 4 = b := by omega
    have h3 : (b % 16 * 4 + c / 64) % 4 * 64 + c % 64 = c := by omega
    rw [h1, h2, h3, base64_roundtrip rest (fun x hx => h x (by simp [hx]))]

theorem quantizeSample_range (x : ℚ) :
    -32768 ≤ quantizeSample x ∧ quantizeSample x ≤ 32767 := by
  unfold quantizeSample toInt16
  set s : ℚ := clampSample x with hs
  have hlo : (-1 : ℚ) ≤ s := le_max_left _ _
  have hhi : s ≤ 1 := max_le (by norm_num) (min_le_left _ _)
  by_cases hneg : s < 0
  · rw [if_pos hneg]
    unfold truncQ
    have hy1 : (-32768 : ℚ) ≤ s * 32768 := by nlinarith
    have hy2 : s * 32768 < 0 := by nlinarith
    rw [if_neg (by linarith)]
    have c1 : (-32768 : ℤ) ≤ ⌈s * 32768⌉ := by
      have := Int.ceil_le_ceil (α := ℚ) hy1
      simpa using this
    have c2 : ⌈s * 32768⌉ ≤ 0 := by
      have := Int.ceil_le.mpr hy2.le
      simpa using this
    omega
  · rw [if_neg hneg]
    push_neg at hneg
    unfold truncQ
    have hy1 : (0 : ℚ) ≤ s * 32767 := by nlinarith
    have hy2 : s * 32767 ≤ 32767 := by nlinarith
    rw [if_pos hy1]
    have c1 : (0 : ℤ) ≤ ⌊s * 32767⌋ := by
      have := Int.floor_le_floor (α := ℚ) hy1
      simpa using this
    have c2 : ⌊s * 32767⌋ ≤ 32767 := by
      have : ⌊s * 32767⌋ ≤ ⌊(32767 : ℚ)⌋ := Int.floor_le_floor hy2
      simpa using this
    omega

/-- Quantization error: for samples already in `[-1, 1]`, decode-after-
encode lands within `2/32768 = 1/16384` of the original (the positive
branch scales by 32767 but decodes by 32768, so the error can exceed one
half-step but never two). -/
theorem quantizeSample_error (x : ℚ) (h1 : -1 ≤ x) (h2 : x ≤ 1) :
    |((quantizeSample x : ℤ) : ℚ) / 32768 - x| ≤ 1/16384 := by
  have hclamp : clampSample x = x := by
    unfold clampSample
    rw [min_eq_right h2, max_eq_right h1]
  unfold quantizeSample
  rw [hclamp]
  by_cases hneg : x < 0
  · rw [if_pos hneg]
    have hy1 : (-32768 : ℚ) ≤ x * 32768 := by nlinarith
    have hy2 : x * 32768 < 0 := by nlinarith
    have htr : truncQ (x * 32768) = ⌈x * 32768⌉ := by
      unfold truncQ
      rw [if_neg (by linarith)]
    have c1 : (-32768 : ℤ) ≤ ⌈x * 32768⌉ := by
      have := Int.ceil_le_ceil (α := ℚ) hy1
      simpa using this
    have c2 : ⌈x * 32768⌉ ≤ 0 := by
      have := Int.ceil_le.mpr hy2.le
      simpa using this
    have hwrap : toInt16 (x * 32768) = ⌈x * 32768⌉ := by
      unfold toInt16
      rw [htr]
      omega
    rw [hwrap]
    have hb1 : x * 32768 ≤ (⌈x * 32768⌉ : ℚ) := Int.le_ceil _
    have hb2 : (⌈x * 32768⌉ : ℚ) < x * 32768 + 1 := Int.ceil_lt_add_one _
    rw [abs_le]
    constructor <;> nlinarith
  · rw [if_neg hneg]
    push_neg at hneg
    have hy1 : (0 : ℚ) ≤ x * 32767 := by nlinarith
    have hy2 : x * 32767 ≤ 32767 := by nlinarith
    have htr : truncQ (x * 32767) = ⌊x * 32767⌋ := by
      unfold truncQ
      rw [if_pos hy1]
    have c1 : (0 : ℤ) ≤ ⌊x * 32767⌋ := by
      have := Int.floor_le_floor (α := ℚ) hy1
      simpa using this
    have c2 : ⌊x * 32767⌋ ≤ 32767 := by
      have : ⌊x * 32767⌋ ≤ ⌊(32767 : ℚ)⌋ := Int.floor_le_floor hy2
      simpa using this
    have hwrap : toInt16 (x * 32767) = ⌊x * 32767⌋ := by
      unfold toInt16
      rw [htr]
      omega
    rw [hwrap]
    have hb1 : (⌊x * 32767⌋ : ℚ) ≤ x * 32767 := Int.floor_le _
    have hb2 : x * 32767 - 1 < (⌊x * 32767⌋ : ℚ) := Int.sub_one_lt_floor _
    rw [abs_le]
    constructor <;> nlinarith

theorem int16ToBytes_bound (v : ℤ) : ∀ b ∈ int16ToBytes v, b < 256 := by
  intro b hb
  unfold int16ToBytes at hb
  have hu : (v % 65536).toNat < 65536 := by omega
  rcases List.mem_cons.mp hb with hb | hb
  · omega
  · simp only [List.mem_singleton] at hb
    omega

theorem encodeAudioBufferToPCMBytes_bound (buffer : AudioBuffer) :
    ∀ b ∈ encodeAudioBufferToPCMBytes buffer, b < 256 := by
  intro b hb
  unfold encodeAudioBufferToPCMBytes at hb
  obtain ⟨s, _, hbs⟩ := List.mem_flatMap.mp hb
  exact int16ToBytes_bound _ b hbs

theorem int16OfPair_int16ToBytes (v : ℤ) (h1 : -32768 ≤ v) (h2 : v ≤ 32767) :
    int16OfPair ((v % 65536).toNat % 256) ((v % 65536).toNat / 256) = v := by
  unfold int16OfPair
  split <;> omega

theorem bytesToInt16List_encode_list :
    ∀ l : List ℚ,
      bytesToInt16List (l.flatMap (fun s => int16ToBytes (quantizeSample s))) =
        l.map quantizeSample
  | [] => rfl
  | s :: rest => by
    rw [List.flatMap_cons, List.map_cons]
    have hsplit : int16ToBytes (quantizeSample s) ++
        rest.flatMap (fun s => int16ToBytes (quantizeSample s)) =
        ((quantizeSample s % 65536).toNat % 256) :: ((quantizeSample s % 65536).toNat / 256) ::
          rest.flatMap (fun s => int16ToBytes (quantizeSample s)) := rfl
    rw [hsplit, bytesToInt16List]
    obtain ⟨hr1, hr2⟩ := quantizeSample_range s
    rw [int16OfPair_int16ToBytes _ hr1 hr2, bytesToInt16List_encode_list rest]

theorem bytesToInt16List_encode (buffer : AudioBuffer) :
    bytesToInt16List (encodeAudioBufferToPCMBytes buffer) =
      buffer.samples.map quantizeSample :=
  bytesToInt16List_encode_list buffer.samples

theorem encode_bytes_length_list :
    ∀ l : List ℚ,
      (l.flatMap (fun s => int16ToBytes (quantizeSample s))).length = 2 * l.length
  | [] => rfl
  | s :: rest => by
    rw [List.flatMap_cons, List.length_append, encode_bytes_length_list rest]
    simp only [int16ToBytes, List.length_cons, List.length_nil]
    omega

theorem encodeAudioBufferToPCMBytes_length (buffer : AudioBuffer) :
    (encodeAudioBufferToPCMBytes buffer).length = 2 * buffer.samples.length :=
  encode_bytes_length_list buffer.samples

theorem bytesToInt16List_length :
    ∀ l : List ℕ, (bytesToInt16List l).length = l.length / 2
  | [] => by rfl
  | [b] => by
    rw [show bytesToInt16List [b] = [] from rfl]
    simp only [List.length_nil, List.length_cons]
  | b0 :: b1 :: rest => by
    rw [bytesToInt16List, List.length_cons, bytesToInt16List_length rest]
    simp only [List.length_cons]
    omega

theorem bytesToInt16List_getD :
    ∀ (l : List ℕ) (i : ℕ), 2 * i + 1 < l.length →
      (bytesToInt16List l).getD i 0 = int16OfPair (l.getD (2 * i) 0) (l.getD (2 * i + 1) 0)
  | [], i, h => by simp at h
  | [b], i, h => by
    simp only [List.length_cons, List.length_nil] at h
    omega
  | b0 :: b1 :: rest, 0, _ => by
    rw [bytesToInt16List]
    rfl
  | b0 :: b1 :: rest, i + 1, h => by
    rw [bytesToInt16List, List.getD_cons_succ]
    have h3 : 2 * (i + 1) + 1 = 2 * i + 1 + 1 + 1 := by omega
    have h2 : 2 * (i + 1) = 2 * i + 1 + 1 := by omega
    rw [h3, h2]
    simp only [List.getD_cons_succ]
    have h4 : 2 * i + 1 + 1 = 2 * i + 2 := by omega
    exact bytesToInt16List_getD rest i (by simp only [List.length_cons] at h; omega)

/-- Claim C5: `decodeAudioData` fails exactly on odd byte lengths; on even
lengths it returns `byteLength / 2` samples, sample `i` being the `i`-th
little-endian signed 16-bit value divided by 32768 (mono decode,
`numChannels = 1`). -/
theorem decodeAudioData_spec (data : List ℕ) (sampleRate : ℚ)
    (hbytes : ∀ b ∈ data, b < 256) :
    (data.length % 2 ≠ 0 → decodeAudioData data sampleRate 1 = none) ∧
      (data.length % 2 = 0 → ∃ buf, decodeAudioData data sampleRate 1 = some buf ∧
        buf.sampleRate = sampleRate ∧
        buf.samples.length = data.length / 2 ∧
        ∀ i, i < data.length / 2 →
          buf.samples.getD i 0 =
            ((int16OfPair (data.getD (2 * i) 0) (data.getD (2 * i + 1) 0) : ℤ) : ℚ) / 32768) := by
  constructor
  · intro hodd
    unfold decodeAudioData
    rw [if_pos hodd]
  · intro heven
    unfold decodeAudioData
    rw [if_neg (by omega)]
    refine ⟨_, rfl, rfl, ?_, ?_⟩
    · rw [List.length_map, List.length_range, bytesToInt16List_length]
      omega
    · intro i hi
      rw [List.getD_eq_getElem?_getD, List.getElem?_map, List.getElem?_range
        (by rw [bytesToInt16List_length]; omega)]
      simp only [Option.map_some', Option.getD_some, Nat.mul_one]
      rw [bytesToInt16List_getD data i (by omega)]

unseal Rat.mul Rat.inv Rat.add Rat.sub in
/-- Witness for `decodeAudioData_spec`: the byte pair `[0, 128]` decodes to
the single sample `-32768 / 32768 = -1`, and the odd-length prefix `[0]`
fails. -/
theorem decodeAudioData_spec_witness :
    (∀ b ∈ ([0, 128] : List ℕ), b < 256) ∧
      (([0, 128] : List ℕ).length % 2 ≠ 0 → decodeAudioData [0, 128] 24000 1 = none) ∧
      (([0, 128] : List ℕ).length % 2 = 0 → ∃ buf, decodeAudioData [0, 128] 24000 1 = some buf ∧
        buf.sampleRate = 24000 ∧
        buf.samples.length = ([0, 128] : List ℕ).length / 2 ∧
        ∀ i, i < ([0, 128] : List ℕ).length / 2 →
          buf.samples.getD i 0 =
            ((int16OfPair (([0, 128] : List ℕ).getD (2 * i) 0)
              (([0, 128] : List ℕ).getD (2 * i + 1) 0) : ℤ) : ℚ) / 32768) :=
  ⟨by decide, (decodeAudioData_spec [0, 128] 24000 (by decide)).1,
    (decodeAudioData_spec [0, 128] 24000 (by decide)).2⟩

/-- Claim C2 amended: the encode/decode round trip reproduces every
in-range sample within `2/32768 = 1/16384` (not `1/32768`: the positive
branch scales by 32767 on encode but 32768 on decode). -/
theorem roundtrip_error_bound (buffer : AudioBuffer) (sr2 : ℚ)
    (h : ∀ s ∈ buffer.samples, -1 ≤ s ∧ s ≤ 1) :
    ∃ out,
      decodeAudioData (base64DecodeChars (encodeAudioBufferToPCMBase64 buffer)) sr2 1 =
        some out ∧
      out.samples.length = buffer.samples.length ∧
      ∀ i, i < buffer.samples.length →
        |out.samples.getD i 0 - buffer.samples.getD i 0| ≤ 1/16384 := by
  unfold encodeAudioBufferToPCMBase64
  rw [base64_roundtrip _ (encodeAudioBufferToPCMBytes_bound buffer)]
  unfold decodeAudioData
  rw [if_neg (by rw [encodeAudioBufferToPCMBytes_length]; omega)]
  rw [bytesToInt16List_encode]
  refine ⟨_, rfl, ?_, ?_⟩
  · simp only [List.length_map, List.length_range]
    omega
  · intro i hi
    have hcount : i < ((buffer.samples.map quantizeSample).length + 1 - 1) / 1 := by
      simp only [List.length_map]
      omega
    rw [List.getD_eq_getElem?_getD, List.getElem?_map, List.getElem?_range hcount]
    simp only [Option.map_some', Option.getD_some, Nat.mul_one]
    have hmap : (buffer.samples.map quantizeSample).getD i 0 =
        quantizeSample (buffer.samples[i]) := by
      rw [List.getD_eq_getElem?_getD, List.getElem?_map, List.getElem?_eq_getElem hi]
      rfl
    have hsamp : buffer.samples.getD i 0 = buffer.samples[i] := by
      rw [List.getD_eq_getElem?_getD, List.getElem?_eq_getElem hi]
      rfl
    rw [hmap, hsamp]
    exact quantizeSample_error _ (h _ (buffer.samples.getElem_mem hi)).1
      (h _ (buffer.samples.getElem_mem hi)).2

unseal Rat.mul Rat.inv Rat.add Rat.sub in
/-- Witness for `roundtrip_error_bound` on the one-sample buffer `[1/2]`. -/
theorem roundtrip_error_bound_witness :
    (∀ s ∈ (AudioBuffer.mk 24000 [1/2]).samples, -1 ≤ s ∧ s ≤ 1) ∧
      ∃ out,
        decodeAudioData (base64DecodeChars (encodeAudioBufferToPCMBase64 ⟨24000, [1/2]⟩))
          24000 1 = some out ∧
        out.samples.length = (AudioBuffer.mk 24000 [1/2]).samples.length ∧
        ∀ i, i < (AudioBuffer.mk 24000 [1/2]).samples.length →
          |out.samples.getD i 0 - (AudioBuffer.mk 24000 [1/2]).samples.getD i 0| ≤ 1/16384 :=
  ⟨by decide, roundtrip_error_bound ⟨24000, [1/2]⟩ 24000 (by decide)⟩

unseal Rat.mul Rat.inv Rat.add Rat.sub in
/-- Claim C2's counterexample: the sample `16777215/16777216` (an exact
`Float32` value just below 1) is in `[-1, 1]`, but the round trip returns
`16383/16384` with absolute error `1023/16777216 > 1/32768`. -/
theorem roundtrip_error_exceeds_quantum :
    ((-1 : ℚ) ≤ 16777215/16777216 ∧ (16777215 : ℚ)/16777216 ≤ 1) ∧
      (decodeAudioData (base64DecodeChars (encodeAudioBufferToPCMBase64
          ⟨24000, [16777215/16777216]⟩)) 24000 1).map
        (fun out => out.samples.getD 0 0) = some (16383/16384) ∧
      ¬ (|(16383 : ℚ)/16384 - 16777215/16777216| ≤ 1/32768) := by
  refine ⟨by decide, ?_, by decide⟩
  decide

/-- Every run of `boundariesLoop` is the image of a strictly increasing list
of emission frame indices `j`, each emitted with the same offset
`msf / 2`; every emission satisfies `msf ≤ j + 1` (the run counter has
counted `msf` frames ending at `j`) and `1 ≤ msf`. -/
theorem boundariesLoop_shape (msf : ℤ) (hop : ℕ) :
    ∀ (sil : List Bool) (i run : ℕ), run ≤ i →
      ∃ idxs : List ℕ,
        boundariesLoop msf hop sil i run =
          idxs.map (fun (j : ℕ) => ((j : ℤ) - msf / 2) * hop) ∧
        idxs.Chain' (· < ·) ∧
        ∀ j ∈ idxs, i ≤ j ∧ j < i + sil.length ∧ msf ≤ (j : ℤ) + 1 ∧ 1 ≤ msf
  | [], i, run, _ => ⟨[], by rw [boundariesLoop]; rfl, by simp, by simp⟩
  | b :: rest, i, run, hri => by
    rw [boundariesLoop]
    by_cases hb : b = true
    · rw [if_pos hb]
      by_cases hm : ((run + 1 : ℕ) : ℤ) = msf
      · rw [if_pos hm]
        obtain ⟨idxs, heq, hch, hmem⟩ :=
          boundariesLoop_shape msf hop rest (i + 1) (run + 1) (by omega)
        refine ⟨i :: idxs, by simp [heq], ?_, ?_⟩
        · rw [List.chain'_cons']
          refine ⟨fun j hj => ?_, hch⟩
          have := hmem j (List.mem_of_mem_head? hj)
          omega
        · intro j hj
          rcases List.mem_cons.mp hj with hj | hj
          · subst hj
            simp only [List.length_cons]
            refine ⟨le_refl _, by omega, by omega, by omega⟩
          · have := hmem j hj
            simp only [List.length_cons]
            exact ⟨by omega, by omega, this.2.2.1, this.2.2.2⟩
      · rw [if_neg hm]
        obtain ⟨idxs, heq, hch, hmem⟩ :=
          boundariesLoop_shape msf hop rest (i + 1) (run + 1) (by omega)
        refine ⟨idxs, heq, hch, fun j hj => ?_⟩
        have := hmem j hj
        simp only [List.length_cons]
        exact ⟨by omega, by omega, this.2.2.1, this.2.2.2⟩
    · rw [if_neg hb]
      obtain ⟨idxs, heq, hch, hmem⟩ :=
        boundariesLoop_shape msf hop rest (i + 1) 0 (by omega)
      refine ⟨idxs, heq, hch, fun j hj => ?_⟩
      have := hmem j hj
      simp only [List.length_cons]
      exact ⟨by omega, by omega, this.2.2.1, this.2.2.2⟩

theorem isSilenceList_length (data : List ℚ) (frameSize hop : ℕ) (θ : ℚ) :
    (isSilenceList data frameSize hop θ).length = numFramesOf data.length frameSize hop := by
  unfold isSilenceList framesMeanSq
  simp

theorem numFrames_mul_le (n fs hop j : ℕ) (hfs : 1 ≤ fs) (hj : j < numFramesOf n fs hop) :
    j * hop ≤ n := by
  unfold numFramesOf at hj
  by_cases hc : fs ≤ n
  · rw [if_pos hc] at hj
    have h1 : j ≤ (n - fs) / hop := by omega
    calc j * hop ≤ (n - fs) / hop * hop := Nat.mul_le_mul_right hop h1
    _ ≤ n - fs := Nat.div_mul_le_self (n - fs) hop
    _ ≤ n := by omega
  · rw [if_neg hc] at hj
    omega

theorem silenceBoundaries_chain (buffer : AudioBuffer) (cfg : SegmentationConfig) :
    (silenceBoundaries buffer cfg).Chain' (· < ·) := by
  obtain ⟨idxs, heq, hch, hmem⟩ := boundariesLoop_shape
    (minSilenceFramesOf cfg.minSilenceMs cfg.hopMs) (hopSizeOf buffer.sampleRate cfg.hopMs)
    (isSilenceList buffer.samples (frameSizeOf buffer.sampleRate cfg.frameMs)
      (hopSizeOf buffer.sampleRate cfg.hopMs) cfg.rmsThreshold) 0 0 le_rfl
  unfold silenceBoundaries
  rw [heq, List.chain'_map]
  refine hch.imp (fun {a b} hab => ?_)
  have hhop : (0 : ℤ) < hopSizeOf buffer.sampleRate cfg.hopMs := by
    have := one_le_hopSizeOf buffer.sampleRate cfg.hopMs
    omega
  have : (a : ℤ) - minSilenceFramesOf cfg.minSilenceMs cfg.hopMs / 2 <
      (b : ℤ) - minSilenceFramesOf cfg.minSilenceMs cfg.hopMs / 2 := by omega
  exact mul_lt_mul_of_pos_right this hhop

theorem silenceBoundaries_bounds (buffer : AudioBuffer) (cfg : SegmentationConfig) :
    ∀ x ∈ silenceBoundaries buffer cfg, 0 ≤ x ∧ x ≤ (buffer.samples.length : ℤ) := by
  obtain ⟨idxs, heq, hch, hmem⟩ := boundariesLoop_shape
    (minSilenceFramesOf cfg.minSilenceMs cfg.hopMs) (hopSizeOf buffer.sampleRate cfg.hopMs)
    (isSilenceList buffer.samples (frameSizeOf buffer.sampleRate cfg.frameMs)
      (hopSizeOf buffer.sampleRate cfg.hopMs) cfg.rmsThreshold) 0 0 le_rfl
  unfold silenceBoundaries
  rw [heq]
  intro x hx
  obtain ⟨j, hj, hjx⟩ := List.mem_map.mp hx
  obtain ⟨_, hjlen, hjmsf, hmsf1⟩ := hmem j hj
  rw [isSilenceList_length] at hjlen
  have hhop : (0 : ℤ) ≤ hopSizeOf buffer.sampleRate cfg.hopMs := by positivity
  have hoff : (0 : ℤ) ≤ (j : ℤ) - minSilenceFramesOf cfg.minSilenceMs cfg.hopMs / 2 := by omega
  constructor
  · rw [← hjx]
    exact mul_nonneg hoff hhop
  · have h1 : (j : ℤ) - minSilenceFramesOf cfg.minSilenceMs cfg.hopMs / 2 ≤ (j : ℤ) := by omega
    have h2 : x ≤ (j : ℤ) * hopSizeOf buffer.sampleRate cfg.hopMs := by
      rw [← hjx]
      exact mul_le_mul_of_nonneg_right h1 hhop
    have h3 : j * hopSizeOf buffer.sampleRate cfg.hopMs ≤ buffer.samples.length :=
      numFrames_mul_le buffer.samples.length _ _ j
        (one_le_frameSizeOf buffer.sampleRate cfg.frameMs) (by omega)
    have h4 : ((j * hopSizeOf buffer.sampleRate cfg.hopMs : ℕ) : ℤ) ≤
        (buffer.samples.length : ℤ) := by exact_mod_cast h3
    push_cast at h4
    omega

theorem chain_lt_append_last (n : ℤ) :
    ∀ B : List ℤ, B.Chain' (· < ·) → (∀ x ∈ B, x ≤ n) → (B ++ [n]).Chain' (· ≤ ·)
  | [], _, _ => by simp
  | x :: B', hch, hub => by
    rw [List.cons_append, List.chain'_cons']
    refine ⟨?_, chain_lt_append_last n B' (List.chain'_cons'.mp hch).2
      (fun y hy => hub y (by simp [hy]))⟩
    intro b hb
    rcases B' with _ | ⟨y, B''⟩
    · simp only [List.nil_append, List.head?_cons, Option.mem_def, Option.some.injEq] at hb
      rw [← hb]
      exact hub x (by simp)
    · simp only [List.cons_append, List.head?_cons, Option.mem_def, Option.some.injEq] at hb
      rw [← hb]
      have := (List.chain'_cons.mp hch).1
      omega

/-- The cut-position list `[0, ...boundaries, data.length]` is
non-decreasing, with every entry between 0 and the buffer length. -/
theorem cutPositions_chain (buffer : AudioBuffer) (cfg : SegmentationConfig) :
    (0 :: silenceBoundaries buffer cfg ++ [(buffer.samples.length : ℤ)]).Chain' (· ≤ ·) := by
  refine List.chain'_cons'.mpr ⟨?_, ?_⟩
  · intro b hb
    have hmem : b ∈ silenceBoundaries buffer cfg ++ [(buffer.samples.length : ℤ)] :=
      List.mem_of_mem_head? hb
    rcases List.mem_append.mp hmem with hm | hm
    · exact (silenceBoundaries_bounds buffer cfg b hm).1
    · simp only [List.mem_singleton] at hm
      rw [hm]
      positivity
  · exact chain_lt_append_last _ _ (silenceBoundaries_chain buffer cfg)
      (fun x hx => (silenceBoundaries_bounds buffer cfg x hx).2)

theorem cutPositions_mem_bounds (buffer : AudioBuffer) (cfg : SegmentationConfig) :
    ∀ x ∈ 0 :: silenceBoundaries buffer cfg ++ [(buffer.samples.length : ℤ)],
      0 ≤ x ∧ x ≤ (buffer.samples.length : ℤ) := by
  intro x hx
  rcases List.mem_cons.mp hx with hx | hx
  · subst hx
    constructor
    · exact le_refl 0
    · positivity
  rcases List.mem_append.mp hx with hx | hx
  · exact silenceBoundaries_bounds buffer cfg x hx
  · simp only [List.mem_singleton] at hx
    subst hx
    constructor
    · positivity
    · exact le_refl _

theorem collectSegments_endpoints (sampleRate : ℚ) :
    ∀ (l : List ℤ) (seg : SampleRange), seg ∈ collectSegments sampleRate l →
      seg.startSample ∈ l ∧ seg.endSample ∈ l ∧
        ((seg.endSample - seg.startSample : ℤ) : ℚ) > sampleRate * (1/5)
  | [], seg, h => by rw [collectSegments] at h; exact absurd h (by simp)
  | [a], seg, h => by rw [collectSegments] at h; exact absurd h (by simp)
  | a :: b :: rest, seg, h => by
    rw [collectSegments] at h
    rcases List.mem_append.mp h with h | h
    · by_cases hg : ((b - a : ℤ) : ℚ) > sampleRate * (1/5)
      · rw [if_pos hg] at h
        simp only [List.mem_singleton] at h
        subst h
        exact ⟨by simp, by simp, hg⟩
      · rw [if_neg hg] at h
        exact absurd h (by simp)
    · obtain ⟨h1, h2, h3⟩ := collectSegments_endpoints sampleRate (b :: rest) seg h
      exact ⟨by simp [List.mem_cons.mp h1], by simp [List.mem_cons.mp h2], h3⟩

theorem collectSegments_start_ge (sampleRate : ℚ) :
    ∀ (l : List ℤ), l.Chain' (· ≤ ·) →
      ∀ seg ∈ collectSegments sampleRate l, ∀ h0 ∈ l.head?, h0 ≤ seg.startSample
  | [], _, seg, h, _, _ => by rw [collectSegments] at h; exact absurd h (by simp)
  | [a], _, seg, h, _, _ => by rw [collectSegments] at h; exact absurd h (by simp)
  | a :: b :: rest, hch, seg, h, h0, hh0 => by
    simp only [List.head?_cons, Option.mem_def, Option.some.injEq] at hh0
    subst hh0
    rw [collectSegments] at h
    rcases List.mem_append.mp h with h | h
    · by_cases hg : ((b - a : ℤ) : ℚ) > sampleRate * (1/5)
      · rw [if_pos hg] at h
        simp only [List.mem_singleton] at h
        subst h
        exact le_refl _
      · rw [if_neg hg] at h
        exact absurd h (by simp)
    · have hb := collectSegments_start_ge sampleRate (b :: rest)
        (List.chain'_cons.mp hch).2 seg h b (by simp)
      have hab := (List.chain'_cons.mp hch).1
      omega

theorem collectSegments_chain (sampleRate : ℚ) :
    ∀ (l : List ℤ), l.Chain' (· ≤ ·) →
      (collectSegments sampleRate l).Chain' (fun s t => s.endSample ≤ t.startSample)
  | [], _ => by rw [collectSegments]; simp
  | [a], _ => by rw [collectSegments]; simp
  | a :: b :: rest, hch => by
    rw [collectSegments]
    have ih := collectSegments_chain sampleRate (b :: rest) (List.chain'_cons.mp hch).2
    by_cases hg : ((b - a : ℤ) : ℚ) > sampleRate * (1/5)
    · rw [if_pos hg]
      rw [List.singleton_append, List.chain'_cons']
      refine ⟨fun u hu => ?_, ih⟩
      have hu' := List.mem_of_mem_head? hu
      exact collectSegments_start_ge sampleRate (b :: rest)
        (List.chain'_cons.mp hch).2 u hu' b (by simp)
    · rw [if_neg hg]
      rw [List.nil_append]
      exact ih

/-- Claim C8: every range emitted by `splitAudioBySilence` lies inside the
buffer (`0 ≤ startSample < endSample ≤ length`), has width strictly greater
than `0.2 * sampleRate` samples, and the emitted ranges are pairwise
non-overlapping in increasing order. -/
theorem splitAudioBySilence_invariant (buffer : AudioBuffer) (cfg : SegmentationConfig)
    (hsr : 0 < buffer.sampleRate) :
    (∀ seg ∈ splitAudioBySilence buffer cfg,
      0 ≤ seg.startSample ∧ seg.startSample < seg.endSample ∧
        seg.endSample ≤ (buffer.samples.length : ℤ) ∧
        ((seg.endSample - seg.startSample : ℤ) : ℚ) > buffer.sampleRate * (1/5)) ∧
      (splitAudioBySilence buffer cfg).Chain' (fun s t => s.endSample ≤ t.startSample) := by
  constructor
  · intro seg hseg
    obtain ⟨hs, he, hdur⟩ := collectSegments_endpoints buffer.sampleRate _ seg hseg
    have hsb := cutPositions_mem_bounds buffer cfg _ hs
    have heb := cutPositions_mem_bounds buffer cfg _ he
    have hpos : (0 : ℚ) < buffer.sampleRate * (1/5) := by positivity
    have hlt : ((0 : ℤ) : ℚ) < ((seg.endSample - seg.startSample : ℤ) : ℚ) := by
      push_cast
      push_cast at hdur
      linarith
    have : (0 : ℤ) < seg.endSample - seg.startSample := by exact_mod_cast hlt
    exact ⟨hsb.1, by omega, heb.2, hdur⟩
  · exact collectSegments_chain buffer.sampleRate _ (cutPositions_chain buffer cfg)

/-- If the next `m` frames are silent and the run counter needs exactly `m`
more frames to reach `minSilenceFrames`, the loop emits the boundary for
frame `i + m - 1` (the frame at which the counter hits the threshold). -/
theorem boundariesLoop_run_hits (msf : ℤ) (hop : ℕ) :
    ∀ (m : ℕ) (sil : List Bool) (i run : ℕ),
      1 ≤ m → ((run : ℤ) + m = msf) →
      (∀ j, j < m → sil.getD j false = true) → m ≤ sil.length →
      (((i + m - 1 : ℕ) : ℤ) - msf / 2) * hop ∈ boundariesLoop msf hop sil i run
  | 0, _, _, _, h1, _, _, _ => absurd h1 (by omega)
  | m + 1, [], i, run, _, _, _, hlen => absurd hlen (by simp)
  | m + 1, b :: rest, i, run, h1, hsum, hsil, hlen => by
    have hb : b = true := by
      have := hsil 0 (by omega)
      rwa [List.getD_cons_zero] at this
    subst hb
    rw [boundariesLoop, if_pos rfl]
    rcases Nat.eq_zero_or_pos m with hm | hm
    · subst hm
      have hmsf : ((run + 1 : ℕ) : ℤ) = msf := by push_cast; push_cast at hsum; omega
      rw [if_pos hmsf]
      refine List.mem_cons.mpr (Or.inl ?_)
      have hx : ((i + (0 + 1) - 1 : ℕ) : ℤ) = (i : ℤ) := by omega
      rw [hx]
    · have hne : ((run + 1 : ℕ) : ℤ) ≠ msf := by push_cast; push_cast at hsum; omega
      rw [if_neg hne]
      have hrec := boundariesLoop_run_hits msf hop m rest (i + 1) (run + 1) (by omega)
        (by push_cast; push_cast at hsum; omega)
        (fun j hj => by
          have := hsil (j + 1) (by omega)
          rwa [List.getD_cons_succ] at this)
        (by simp only [List.length_cons] at hlen; omega)
      have hx : (((i + 1) + m - 1 : ℕ) : ℤ) = ((i + (m + 1) - 1 : ℕ) : ℤ) := by omega
      rw [hx] at hrec
      exact hrec

/-- If a silence run starts at offset `k` of the remaining frame list (the
frame before it, if any, is non-silent) and at least `minSilenceFrames`
silent frames follow, the loop emits the boundary for absolute frame
`i + k + M - 1` no matter what the incoming run counter is. -/
theorem boundariesLoop_run_start_hits (msf : ℤ) (hop : ℕ) (M : ℕ) (hM : 1 ≤ M)
    (hmsf : msf = (M : ℤ)) :
    ∀ (sil : List Bool) (k i run : ℕ),
      (k = 0 → run = 0) →
      (1 ≤ k → sil.getD (k - 1) true = false) →
      (∀ j, j < M → sil.getD (k + j) false = true) →
      k + M ≤ sil.length →
      (((i + k + M - 1 : ℕ) : ℤ) - msf / 2) * hop ∈ boundariesLoop msf hop sil i run
  | [], k, i, run, _, _, _, hlen => by
    simp only [List.length_nil] at hlen
    omega
  | b :: rest, k, i, run, hk0, hkprev, hsil, hlen => by
    rcases Nat.eq_zero_or_pos k with hk | hk
    · subst hk
      have hrun := hk0 rfl
      subst hrun
      have hblock := boundariesLoop_run_hits msf hop M (b :: rest) i 0 hM (by omega)
        (fun j hj => by have := hsil j hj; simpa using this) (by simpa using hlen)
      have hx : ((i + M - 1 : ℕ) : ℤ) = ((i + 0 + M - 1 : ℕ) : ℤ) := by omega
      rw [hx] at hblock
      exact hblock
    · have hlen' : (k - 1) + M ≤ rest.length := by
        simp only [List.length_cons] at hlen
        omega
      have hsil' : ∀ j, j < M → rest.getD ((k - 1) + j) false = true := by
        intro j hj
        have := hsil j hj
        have hkj : k + j = ((k - 1) + j) + 1 := by omega
        rwa [hkj, List.getD_cons_succ] at this
      by_cases hk1 : k = 1
      · subst hk1
        have hbf := hkprev le_rfl
        rw [List.getD_cons_zero] at hbf
        subst hbf
        rw [boundariesLoop, if_neg (by simp)]
        have hrec := boundariesLoop_run_start_hits msf hop M hM hmsf rest 0 (i + 1) 0
          (fun _ => rfl) (fun hcon => absurd hcon (by omega))
          (by simpa using hsil') (by simpa using hlen')
        have hx : (((i + 1) + 0 + M - 1 : ℕ) : ℤ) = ((i + 1 + M - 1 : ℕ) : ℤ) := by omega
        rw [hx] at hrec
        exact hrec
      · have hk2 : 2 ≤ k := by omega
        have hkprev' : 1 ≤ k - 1 → rest.getD ((k - 1) - 1) true = false := by
          intro _
          have := hkprev (by omega)
          have hx : k - 1 = ((k - 1) - 1) + 1 := by omega
          rwa [hx, List.getD_cons_succ] at this
        have hx : (((i + 1) + (k - 1) + M - 1 : ℕ) : ℤ) = ((i + k + M - 1 : ℕ) : ℤ) := by
          omega
        cases b with
        | false =>
          rw [boundariesLoop, if_neg (by simp)]
          have hrec := boundariesLoop_run_start_hits msf hop M hM hmsf rest (k - 1) (i + 1) 0
            (fun hcon => absurd hcon (by omega)) hkprev' hsil' hlen'
          rw [hx] at hrec
          exact hrec
        | true =>
          rw [boundariesLoop, if_pos rfl]
          have hrec := boundariesLoop_run_start_hits msf hop M hM hmsf rest (k - 1) (i + 1)
            (run + 1) (fun hcon => absurd hcon (by omega)) hkprev' hsil' hlen'
          rw [hx] at hrec
          by_cases hm : ((run + 1 : ℕ) : ℤ) = msf
          · rw [if_pos hm]
            exact List.mem_cons_of_mem _ hrec
          · rw [if_neg hm]
            exact hrec

theorem silenceBoundaries_nodup (buffer : AudioBuffer) (cfg : SegmentationConfig) :
    (silenceBoundaries buffer cfg).Nodup :=
  (List.chain'_iff_pairwise.mp (silenceBoundaries_chain buffer cfg)).imp
    (fun hab => ne_of_lt hab)

/-- Claim C6 amended: a silence run that starts at frame `k` (the previous
frame, if any, is non-silent) and reaches `minSilenceFrames = M` consecutive
silent frames gets exactly one boundary, and its sample position is
`((k + M - 1) - ⌊M / 2⌋) * hopSize` — the emission happens at the frame
where the run counter reaches the threshold (`k + M - 1`), not at the run's
first frame `k`. -/
theorem silence_run_emits_one_boundary (buffer : AudioBuffer) (cfg : SegmentationConfig)
    (sil : List Bool) (k M : ℕ)
    (hsil_def : sil = isSilenceList buffer.samples (frameSizeOf buffer.sampleRate cfg.frameMs)
      (hopSizeOf buffer.sampleRate cfg.hopMs) cfg.rmsThreshold)
    (hM : 1 ≤ M)
    (hmsf : minSilenceFramesOf cfg.minSilenceMs cfg.hopMs = (M : ℤ))
    (hrun : ∀ j, j < M → sil.getD (k + j) false = true)
    (hstart : 1 ≤ k → sil.getD (k - 1) true = false)
    (hlen : k + M ≤ sil.length) :
    (silenceBoundaries buffer cfg).count
      ((((k + M - 1 : ℕ) : ℤ) - minSilenceFramesOf cfg.minSilenceMs cfg.hopMs / 2) *
        hopSizeOf buffer.sampleRate cfg.hopMs) = 1 := by
  subst hsil_def
  have hmem := boundariesLoop_run_start_hits
    (minSilenceFramesOf cfg.minSilenceMs cfg.hopMs) (hopSizeOf buffer.sampleRate cfg.hopMs)
    M hM hmsf _ k 0 0 (fun _ => rfl) hstart hrun hlen
  have hx : ((0 + k + M - 1 : ℕ) : ℤ) = ((k + M - 1 : ℕ) : ℤ) := by omega
  rw [hx] at hmem
  exact List.count_eq_one_of_mem (silenceBoundaries_nodup buffer cfg) hmem

unseal Rat.mul Rat.inv Rat.add Rat.sub in
/-- Claim C6's counterexample: 20 zero samples at 1000 Hz with
`frameMs = hopMs = 10`, `minSilenceMs = 20` give two silent frames, a run
starting at frame `k = 0` that reaches `minSilenceFrames = 2`.  The claimed
position `(k - ⌊minSilenceFrames / 2⌋) * hopSize = -10` is not emitted; the
loop emits `0` (for the frame where the counter reaches 2). -/
theorem boundary_position_counterexample :
    isSilenceList (List.replicate 20 (0 : ℚ)) (frameSizeOf 1000 10) (hopSizeOf 1000 10)
        (1/2) = [true, true] ∧
      minSilenceFramesOf 20 10 = 2 ∧
      hopSizeOf 1000 10 = 10 ∧
      silenceBoundaries ⟨1000, List.replicate 20 0⟩ ⟨1/2, 20, 10, 10⟩ = [0] ∧
      ((0 : ℤ) - minSilenceFramesOf 20 10 / 2) * hopSizeOf 1000 10 = -10 ∧
      ¬ ((-10 : ℤ) ∈ silenceBoundaries ⟨1000, List.replicate 20 0⟩ ⟨1/2, 20, 10, 10⟩) := by
  decide

unseal Rat.mul Rat.inv Rat.add Rat.sub in
/-- Witness for `silence_run_emits_one_boundary` on the two-silent-frame
buffer: the run starts at `k = 0`, reaches `M = 2`, and the single boundary
sits at `((0 + 2 - 1) - 1) * 10 = 0`. -/
theorem silence_run_emits_one_boundary_witness :
    ([true, true] = isSilenceList (AudioBuffer.mk 1000 (List.replicate 20 0)).samples
        (frameSizeOf 1000 10) (hopSizeOf 1000 10) (1/2)) ∧
      (1 ≤ 2) ∧ (minSilenceFramesOf 20 10 = ((2 : ℕ) : ℤ)) ∧
      (∀ j, j < 2 → ([true, true] : List Bool).getD (0 + j) false = true) ∧
      ((1 ≤ 0 → ([true, true] : List Bool).getD (0 - 1) true = false)) ∧
      (0 + 2 ≤ ([true, true] : List Bool).length) ∧
      (silenceBoundaries ⟨1000, List.replicate 20 0⟩ ⟨1/2, 20, 10, 10⟩).count
        ((((0 + 2 - 1 : ℕ) : ℤ) - minSilenceFramesOf 20 10 / 2) *
          hopSizeOf 1000 10) = 1 :=
  ⟨by decide, by decide, by decide, by decide, by decide, by decide,
    silence_run_emits_one_boundary ⟨1000, List.replicate 20 0⟩ ⟨1/2, 20, 10, 10⟩
      [true, true] 0 2 (by decide) (by decide) (by decide) (by decide) (by decide) (by decide)⟩

theorem framesMeanSq_nil (frameSize hop : ℕ) (hfs : 1 ≤ frameSize) :
    framesMeanSq ([] : List ℚ) frameSize hop = [] := by
  unfold framesMeanSq numFramesOf
  rw [if_neg (by simp; omega)]
  simp

theorem isSilenceList_nil (frameSize hop : ℕ) (θ : ℚ) (hfs : 1 ≤ frameSize) :
    isSilenceList ([] : List ℚ) frameSize hop θ = [] := by
  unfold isSilenceList
  rw [framesMeanSq_nil frameSize hop hfs]
  rfl

/-- Claim C9: an empty buffer yields zero analysis frames and zero candidate
ranges, and `normalizeRangesToCount` on the resulting empty range list with
a positive target crashes (returns `none`) in its split phase instead of
producing ranges. -/
theorem empty_buffer_degenerate (sr sr2 : ℚ) (cfg : SegmentationConfig) (count : ℕ)
    (hsr : 0 ≤ sr) (hcount : 0 < count) :
    framesMeanSq ([] : List ℚ) (frameSizeOf sr cfg.frameMs) (hopSizeOf sr cfg.hopMs) = [] ∧
      splitAudioBySilence ⟨sr, []⟩ cfg = [] ∧
      normalizeRangesToCount [] count sr2 = none := by
  refine ⟨framesMeanSq_nil _ _ (one_le_frameSizeOf sr cfg.frameMs), ?_,
    normalize_nil_crashes count sr2 hcount⟩
  have hb : silenceBoundaries ⟨sr, []⟩ cfg = [] := by
    show boundariesLoop _ _ (isSilenceList [] (frameSizeOf sr cfg.frameMs)
      (hopSizeOf sr cfg.hopMs) cfg.rmsThreshold) 0 0 = []
    rw [isSilenceList_nil _ _ _ (one_le_frameSizeOf sr cfg.frameMs)]
    rw [boundariesLoop]
  show collectSegments sr (0 :: silenceBoundaries ⟨sr, []⟩ cfg ++
    [(([] : List ℚ).length : ℤ)]) = []
  rw [hb]
  have h0 : (0 : ℚ) ≤ sr * (1/5) := by positivity
  simp [collectSegments, not_lt.mpr h0]
  exact hsr

unseal Rat.mul Rat.inv Rat.add Rat.sub in
/-- Witness for `empty_buffer_degenerate` at the engine's production
configuration. -/
theorem empty_buffer_degenerate_witness :
    ((0 : ℚ) ≤ 24000) ∧ (0 < 1) ∧
      (framesMeanSq ([] : List ℚ) (frameSizeOf 24000 20) (hopSizeOf 24000 10) = [] ∧
        splitAudioBySilence ⟨24000, []⟩ ⟨3/200, 450, 20, 10⟩ = [] ∧
        normalizeRangesToCount [] 1 24000 = none) :=
  ⟨by decide, by decide,
    empty_buffer_degenerate 24000 24000 ⟨3/200, 450, 20, 10⟩ 1 (by decide) (by decide)⟩

unseal Rat.mul Rat.inv Rat.add Rat.sub in
/-- Witness for `splitAudioBySilence_invariant` on a small constant-tone
buffer, which yields the single segment `[0, 5)`. -/
theorem splitAudioBySilence_invariant_witness :
    ((0 : ℚ) < (10 : ℚ)) ∧
      ((∀ seg ∈ splitAudioBySilence ⟨10, [1, 1, 1, 1, 1]⟩ ⟨1/2, 100, 100, 100⟩,
        0 ≤ seg.startSample ∧ seg.startSample < seg.endSample ∧
          seg.endSample ≤ ((AudioBuffer.mk 10 [1, 1, 1, 1, 1]).samples.length : ℤ) ∧
          ((seg.endSample - seg.startSample : ℤ) : ℚ) > (10 : ℚ) * (1/5)) ∧
        (splitAudioBySilence ⟨10, [1, 1, 1, 1, 1]⟩ ⟨1/2, 100, 100, 100⟩).Chain'
          (fun s t => s.endSample ≤ t.startSample)) :=
  ⟨by decide, splitAudioBySilence_invariant ⟨10, [1, 1, 1, 1, 1]⟩ ⟨1/2, 100, 100, 100⟩ (by decide)⟩

end AudioEngine
